import Mathlib

/-!
Verification of the nonogram library: clue satisfaction, clue construction,
puzzle trimming, the combinatorial line-solution enumerator, and the two
deterministic solvers (exhaustive and clue-driven backtracking).

Clues are modelled as `List Nat` (the stored run lengths of a `Nonoclue`),
line fillings as `List Bool`, grids as `List (List Bool)` in row-major order.
Python exceptions are modelled with `Except String`.
-/

/-! ## Clue satisfaction: `Nonoclue.satisfied_by` (gram.py lines 61-98) -/

/-- The scanning loop of `Nonoclue.satisfied_by`: state `cur_hint` (index of the
next expected run) and `line` (length of the current run of filled squares),
consuming the boolean squares one at a time.  The `[]` case is the final
`return cur_hint == len(self)`. -/
def satAux (clue : List Nat) : Nat → Nat → List Bool → Bool
  | cur_hint, _, [] => cur_hint == clue.length
  | cur_hint, line, square :: rest =>
    let line := line + (if square then 1 else 0)
    if square = false ∧ 0 < line then
      if cur_hint = clue.length ∨ line ≠ clue.getD cur_hint 0 then false
      else satAux clue (cur_hint + 1) 0 rest
    else satAux clue cur_hint line rest

/-- `Nonoclue.satisfied_by`: run the scan over the sequence with the trailing
`False` fencepost appended by `Nonoclue._bool_iter`. -/
def satisfied_by (clue : List Nat) (sequence : List Bool) : Bool :=
  satAux clue 0 0 (sequence ++ [false])

/-- Variant of `satAux` that carries the not-yet-matched suffix of the clue
instead of an index into it; used only to reason about `satAux`. -/
def satRem : List Nat → Nat → List Bool → Bool
  | rem, _, [] => rem.isEmpty
  | rem, line, square :: rest =>
    let line := line + (if square then 1 else 0)
    if square = false ∧ 0 < line then
      match rem with
      | [] => false
      | h :: t => if line ≠ h then false else satRem t 0 rest
    else satRem rem line rest

/-- Lengths of the maximal runs of `true` in a boolean sequence, left to right;
`n` is the length of the run in progress. -/
def runsAux : Nat → List Bool → List Nat
  | n, [] => if 0 < n then [n] else []
  | n, true :: rest => runsAux (n + 1) rest
  | n, false :: rest => if 0 < n then n :: runsAux 0 rest else runsAux 0 rest

/-- Lengths of the maximal runs of `true`, read left to right. -/
def runs (s : List Bool) : List Nat := runsAux 0 s

/-! ## Clue construction: `Nonoclue._init_clue` (gram.py lines 14-49),
restricted to a flat sequence of integers. -/

/-- `Nonoclue._init_clue` on a flat list of integers: a negative value raises
`ValueError`, zeros are dropped, positive values are kept in order. -/
def init_clue : List Int → Except String (List Nat)
  | [] => .ok []
  | x :: rest =>
    if x < 0 then .error "Negative numbers are not valid clues."
    else if 0 < x then (init_clue rest).map (fun clue => x.toNat :: clue)
    else init_clue rest

/-! ## Puzzles: `Nonogram._init_clues` (gram.py lines 104-114) -/

/-- `Nonogram._init_clues`: drop empty clues from the front and the back of a
clue sequence (`start_idx` / `end_idx` scanning). -/
def init_clues (clue_seq : List (List Nat)) : List (List Nat) :=
  (clue_seq.dropWhile List.isEmpty).rdropWhile List.isEmpty

/-- A nonogram: stored (already trimmed) row clues and column clues. -/
structure Nonogram where
  rows : List (List Nat)
  cols : List (List Nat)
deriving DecidableEq

/-- `Nonogram.__init__`: trim both clue sequences. -/
def mkNonogram (rows cols : List (List Nat)) : Nonogram :=
  ⟨init_clues rows, init_clues cols⟩

/-! ## The line-solution enumerator: `ClueSolutions` (solve/utils.py) -/

/-- `itertools.combinations` over a list of candidate positions: all
`k`-element subsequences, in the lexicographic order that
`itertools.combinations` guarantees. -/
def combinations : Nat → List Nat → List (List Nat)
  | 0, _ => [[]]
  | _ + 1, [] => []
  | k + 1, x :: xs =>
    ((combinations k xs).map (fun ys => x :: ys)) ++ combinations (k + 1) xs

/-- `ClueSolutions._gaps_to_sol` (utils.py lines 111-118): expand gap lengths
paired with run lengths (plus the fencepost run `0`) into a boolean array, then
strip the first and last padding squares (`sol[1:-1]`). -/
def gaps_to_sol (clue : List Nat) (gaps : List Nat) : List Bool :=
  let sol := (gaps.zip (clue ++ [0])).flatMap
    (fun p => List.replicate p.1 false ++ List.replicate p.2 true)
  (sol.drop 1).dropLast

/-- `ClueSolutions._iterator` (utils.py lines 120-133) as the list of all
yielded solutions, in yield order.  `range(1, empty_count)` is
`List.range' 1 (empty_count - 1)`, which is empty whenever
`empty_count ≤ 1`, matching Python also when `n + 2 - X` would be negative. -/
def clue_solutions (clue : List Nat) (target_length : Nat) : List (List Bool) :=
  let empty_count := target_length + 2 - clue.sum
  let divider_indices := List.range' 1 (empty_count - 1)
  (combinations clue.length divider_indices).map (fun positions =>
    let ls := 0 :: positions ++ [empty_count]
    let gap_lengths := (ls.zip ls.tail).map (fun p => p.2 - p.1)
    gaps_to_sol clue gap_lengths)

/-- Python `math.comb`: raises `ValueError` on a negative argument, otherwise
`C(n, k)` (which is `0` for `k > n ≥ 0`). -/
def math_comb (n k : Int) : Except String Nat :=
  if n < 0 ∨ k < 0 then .error "ValueError"
  else .ok (Nat.choose n.toNat k.toNat)

/-- `ClueSolutions.__len__` (utils.py lines 197-212):
`math.comb(self.target_length + 1 - sum(self.clue), len(self.clue))`. -/
def cs_len (clue : List Nat) (target_length : Nat) : Except String Nat :=
  math_comb ((target_length : Int) + 1 - (clue.sum : Int))
    (clue.length : Int)

/-- Shape of an enumerator output: alternate gaps of `false` and runs of
`true`, one more gap than runs. -/
def canon : List Nat → List Nat → List Bool
  | g :: gs, x :: xs =>
    List.replicate g false ++ List.replicate x true ++ canon gs xs
  | g :: _, [] => List.replicate g false
  | [], _ => []

/-- Indices at which maximal runs of `true` start; `i` is the index of the
next square, `prev` the value of the previous square. -/
def runStartsAux : Nat → Bool → List Bool → List Nat
  | _, _, [] => []
  | i, prev, b :: rest =>
    if b && !prev then i :: runStartsAux (i + 1) b rest
    else runStartsAux (i + 1) b rest

/-- Indices at which the maximal runs of `true` start, left to right. -/
def runStarts (s : List Bool) : List Nat := runStartsAux 0 false s

/-- Run-start indices of `canon gs xs`, with `i` the index of its first
square. -/
def startsFrom : Nat → List Nat → List Nat → List Nat
  | i, g :: gs, x :: xs => (i + g) :: startsFrom (i + g + x) gs xs
  | _, _, _ => []

/-- Partial sums of all gaps but the last: recovers divider positions from gap
lengths. -/
def accpos : Nat → List Nat → List Nat
  | _, [] => []
  | _, [_] => []
  | c, g :: gs => (c + g) :: accpos (c + g) gs

/-- Increment the last entry of a list of gap lengths. -/
def bumpLast : List Nat → List Nat
  | [] => []
  | [g] => [g + 1]
  | g :: gs => g :: bumpLast gs

/-- Decrement the last entry of a list of gap lengths. -/
def decLast : List Nat → List Nat
  | [] => []
  | [g] => [g - 1]
  | g :: gs => g :: decLast gs

/-- Consecutive differences, `itertools.pairwise` followed by subtraction. -/
def diffs (l : List Nat) : List Nat :=
  (l.zip l.tail).map (fun p => p.2 - p.1)

/-- Remove the padding square from the first and last gap. -/
def unpadGaps : List Nat → List Nat
  | [] => []
  | g :: gs => decLast ((g - 1) :: gs)

/-! ## Grids, satisfaction counting, and the solvers (solve/detsearch.py) -/

/-- Result of a solver `solve` call: a grid, or one of the two `SolveFailure`
members `DNE` and `INC`. -/
inductive SolveResult where
  | grid : List (List Bool) → SolveResult
  | dne : SolveResult
  | inc : SolveResult
deriving DecidableEq

/-- `itertools.product(pool, repeat := n)`: all length-`n` sequences over
`pool`, first coordinate varying slowest. -/
def pyProduct {α : Type} (pool : List α) : Nat → List (List α)
  | 0 => [[]]
  | n + 1 => pool.flatMap (fun x => (pyProduct pool n).map (fun t => x :: t))

/-- Columns of a grid as read through `Nonogrid.cols`:
entry `(r, c)` is `grid[r][c]`. -/
def gridCols (w : Nat) (grid : List (List Bool)) : List (List Bool) :=
  (List.range w).map (fun c => grid.map (fun row => row.getD c false))

/-- `Nonogram.satisfied_count` (gram.py lines 160-194): the number of row plus
column clues the grid satisfies (dimensions assumed to match, as in every
solver call site). -/
def satisfied_count (g : Nonogram) (grid : List (List Bool)) : Nat :=
  (g.rows.zip grid).countP (fun rc => satisfied_by rc.1 rc.2) +
    (g.cols.zip (gridCols g.cols.length grid)).countP
      (fun cc => satisfied_by cc.1 cc.2)

/-- `Nonogram.num_clues`: `height + width`. -/
def num_clues (g : Nonogram) : Nat := g.rows.length + g.cols.length

/-- `Nonogram.satisfied_by` on grids (gram.py lines 197-219):
`satisfied_count == num_clues`. -/
def gram_satisfied_by (g : Nonogram) (grid : List (List Bool)) : Bool :=
  satisfied_count g grid == num_clues g

/-- A well-formed `h × w` grid in row-major order. -/
def WFGrid (h w : Nat) (grid : List (List Bool)) : Prop :=
  grid.length = h ∧ ∀ row ∈ grid, row.length = w

/-- One iteration of the loop in `NaiveSolver.max_sat` (detsearch.py lines
92-104): append on a tie, replace on an improvement. -/
def naive_step (g : Nonogram) (acc : Nat × List (List (List Bool)))
    (grid : List (List Bool)) : Nat × List (List (List Bool)) :=
  let clue_sat := satisfied_count g grid
  let acc := if clue_sat = acc.1 then (acc.1, acc.2 ++ [grid]) else acc
  if clue_sat > acc.1 then (clue_sat, [grid]) else acc

/-- `NaiveSolver.max_sat` with `collect=False`, folding over the grids of
`NaiveSolver._grid_iterator` (all boolean grids, row tuples in
`itertools.product` order). -/
def naive_max_sat (g : Nonogram) : Nat × List (List (List Bool)) :=
  (pyProduct (pyProduct [false, true] g.cols.length) g.rows.length).foldl
    (naive_step g) (0, [])

/-- `NaiveSolver.solve` with `collect=False` (detsearch.py lines 79-84):
return `maxim_list[0]` when every clue is satisfied, else `DNE`. -/
def naive_solve (g : Nonogram) : SolveResult :=
  match naive_max_sat g with
  | (frac_sat, maxim_list) =>
    let sol : SolveResult :=
      match maxim_list with
      | [] => .dne
      | x :: _ => .grid x
    if frac_sat = g.rows.length + g.cols.length then sol else .dne

/-- Ordered cartesian product of a list of lists, in the row-by-row recursion
order of `ClueChooser._find_solution_rec`. -/
def listProd {α : Type} : List (List α) → List (List α)
  | [] => [[]]
  | l :: ls => l.flatMap (fun x => (listProd ls).map (fun t => x :: t))

/-- `ClueChooser._num_combs` (detsearch.py lines 17-23): the product of the
per-clue solution counts, propagating the `ValueError` that
`ClueSolutions.__len__` may raise. -/
def num_combs : List (List Nat) → Nat → Except String Nat
  | [], _ => .ok 1
  | c :: cs, len => do
    let a ← cs_len c len
    let b ← num_combs cs len
    pure (a * b)

/-- The grids enumerated by `ClueChooser._find_solution_rec`, in recursion
order: every choice of one row-enumerator solution per row. -/
def chooser_candidates (g : Nonogram) : List (List (List Bool)) :=
  listProd (g.rows.map (fun r => clue_solutions r g.cols.length))

/-- `ClueChooser._find_solution` with `collect=False` (detsearch.py lines
26-50): the first candidate grid satisfying the nonogram, or none; with an
empty rows list, `_find_solution_rec` evaluates `row_sols[0]` on an empty list
and raises `IndexError`. -/
def chooser_find_solution (g : Nonogram) :
    Except String (Option (List (List Bool))) :=
  match g.rows with
  | [] => .error "IndexError"
  | _ :: _ =>
    .ok ((chooser_candidates g).find? (fun grid => gram_satisfied_by g grid))

/-- `ClueChooser.solve` with `collect=False` (detsearch.py lines 52-67). -/
def clue_chooser_solve (g : Nonogram) : Except String SolveResult := do
  let row_leaves ← num_combs g.rows g.cols.length
  let col_leaves ← num_combs g.cols g.rows.length
  if row_leaves = 0 ∨ col_leaves = 0 then
    return SolveResult.dne
  match ← chooser_find_solution g with
  | some grid => return SolveResult.grid grid
  | none => return SolveResult.dne

/-! # Theorems -/

/-! ## `satAux` versus `satRem` versus `runs` -/

theorem satAux_nil (clue : List Nat) (c line : Nat) :
    satAux clue c line [] = (c == clue.length) := rfl

theorem satAux_true (clue : List Nat) (c line : Nat) (rest : List Bool) :
    satAux clue c line (true :: rest) = satAux clue c (line + 1) rest := by
  simp [satAux]

theorem satAux_false_zero (clue : List Nat) (c : Nat) (rest : List Bool) :
    satAux clue c 0 (false :: rest) = satAux clue c 0 rest := by
  simp [satAux]

theorem satAux_false_pos (clue : List Nat) (c line : Nat) (rest : List Bool)
    (h : 0 < line) :
    satAux clue c line (false :: rest) =
      if c = clue.length ∨ line ≠ clue.getD c 0 then false
      else satAux clue (c + 1) 0 rest := by
  simp [satAux, h]

theorem satRem_nil (rem : List Nat) (line : Nat) :
    satRem rem line [] = rem.isEmpty := by
  cases rem <;> rfl

theorem satRem_true (rem : List Nat) (line : Nat) (rest : List Bool) :
    satRem rem line (true :: rest) = satRem rem (line + 1) rest := by
  cases rem <;> simp [satRem]

theorem satRem_false_zero (rem : List Nat) (rest : List Bool) :
    satRem rem 0 (false :: rest) = satRem rem 0 rest := by
  cases rem <;> simp [satRem]

theorem satRem_false_pos (rem : List Nat) (line : Nat) (rest : List Bool)
    (h : 0 < line) :
    satRem rem line (false :: rest) =
      match rem with
      | [] => false
      | hd :: t => if line ≠ hd then false else satRem t 0 rest := by
  cases rem <;> simp [satRem, h]

theorem satAux_eq_satRem (s : List Bool) : ∀ (clue : List Nat) (c line : Nat),
    c ≤ clue.length → satAux clue c line s = satRem (clue.drop c) line s := by
  induction s with
  | nil =>
    intro clue c line hc
    rw [satAux_nil, satRem_nil]
    by_cases h : c = clue.length
    · have : clue.drop c = [] := by rw [List.drop_eq_nil_iff]; omega
      simp [h, this]
    · have hne : clue.drop c ≠ [] := by
        rw [ne_eq, List.drop_eq_nil_iff]; omega
      have h1 : (c == clue.length) = false := by simp [h]
      have h2 : (clue.drop c).isEmpty = false := by
        simp [List.isEmpty_iff, hne]
      rw [h1, h2]
  | cons square rest ih =>
    intro clue c line hc
    cases square with
    | true =>
      rw [satAux_true, satRem_true]
      exact ih clue c (line + 1) hc
    | false =>
      rcases Nat.eq_zero_or_pos line with hz | hpos
      · subst hz
        rw [satAux_false_zero, satRem_false_zero]
        exact ih clue c 0 hc
      · rw [satAux_false_pos _ _ _ _ hpos, satRem_false_pos _ _ _ hpos]
        by_cases hce : c = clue.length
        · have hnil : clue.drop c = [] := by rw [List.drop_eq_nil_iff]; omega
          simp [hce, hnil]
        · have hlt : c < clue.length := by omega
          have hdrop : clue.drop c = clue[c] :: clue.drop (c + 1) :=
            List.drop_eq_getElem_cons hlt
          have hgd : clue.getD c 0 = clue[c] := by
            simp [List.getD_eq_getElem?_getD, List.getElem?_eq_getElem hlt]
          rw [hdrop, hgd]
          by_cases hval : line = clue[c]
          · simp only [hce, false_or, hval, ne_eq, not_true_eq_false, if_neg,
              not_false_eq_true, ite_false]
            exact ih clue (c + 1) 0 (by omega)
          · simp [hce, hval]

theorem satRem_append_false (s : List Bool) : ∀ (rem : List Nat) (line : Nat),
    satRem rem line (s ++ [false]) = true ↔ runsAux line s = rem := by
  induction s with
  | nil =>
    intro rem line
    rcases Nat.eq_zero_or_pos line with hz | hpos
    · subst hz
      rw [List.nil_append, satRem_false_zero, satRem_nil]
      rw [show runsAux 0 [] = [] from rfl]
      rw [List.isEmpty_iff]
      exact ⟨Eq.symm, Eq.symm⟩
    · rw [List.nil_append, satRem_false_pos _ _ _ hpos]
      rw [show runsAux line [] = if 0 < line then [line] else [] from rfl,
        if_pos hpos]
      cases rem with
      | nil => simp
      | cons hd t =>
        show (if line ≠ hd then false else satRem t 0 []) = true ↔
          [line] = hd :: t
        by_cases hv : line = hd
        · rw [if_neg (by simpa using hv), satRem_nil, List.isEmpty_iff]
          constructor
          · intro h
            rw [hv, h]
          · intro h
            injection h with h1 h2
            exact h2.symm
        · rw [if_pos hv]
          simp [hv]
  | cons b rest ih =>
    intro rem line
    cases b with
    | true =>
      rw [List.cons_append, satRem_true, ih]
      simp [runsAux]
    | false =>
      rcases Nat.eq_zero_or_pos line with hz | hpos
      · subst hz
        rw [List.cons_append, satRem_false_zero, ih]
        simp [runsAux]
      · rw [List.cons_append, satRem_false_pos _ _ _ hpos]
        cases rem with
        | nil => simp [runsAux, hpos]
        | cons hd t =>
          by_cases hv : line = hd
          · subst hv
            simp [runsAux, hpos, ih]
          · simp [runsAux, hpos, hv]

theorem satisfied_iff_runs (clue : List Nat) (s : List Bool) :
    satisfied_by clue s = true ↔ runs s = clue := by
  rw [satisfied_by, satAux_eq_satRem _ clue 0 0 (Nat.zero_le _), List.drop_zero]
  exact satRem_append_false s clue 0

/-- C1: for every Nonoclue `c` and every finite boolean sequence `s`,
`c.satisfied_by(s)` returns true iff the list of lengths of the maximal
contiguous runs of `true` in `s`, read left to right, equals `c`'s stored run
list exactly in count and order. -/
theorem satisfied_by_iff_runs_eq (clue : List Nat) (s : List Bool) :
    satisfied_by clue s = true ↔ runs s = clue :=
  satisfied_iff_runs clue s

/-! ## Clue construction -/

theorem init_clue_eq (xs : List Int) :
    init_clue xs = if xs.any (fun x => decide (x < 0))
      then Except.error "Negative numbers are not valid clues."
      else Except.ok ((xs.filter (fun x => decide (x ≠ 0))).map Int.toNat) := by
  induction xs with
  | nil => rfl
  | cons x rest ih =>
    by_cases hneg : x < 0
    · simp [init_clue, hneg]
    · by_cases hpos : 0 < x
      · have hne : x ≠ 0 := by omega
        by_cases hany : rest.any (fun y => decide (y < 0)) = true
        · simp [init_clue, hneg, hpos, ih, hany, hne, Except.map]
        · simp [init_clue, hneg, hpos, ih, hany, hne, Except.map]
      · have hz : x = 0 := by omega
        subst hz
        simp [init_clue, ih]

/-- C7: construction of a Nonoclue from a flat sequence of integers raises
exactly when some supplied value is negative; on success the stored clue is the
supplied values with every zero dropped, order preserved, and so every stored
run length is at least 1. -/
theorem init_clue_correct (xs : List Int) :
    (init_clue xs = if xs.any (fun x => decide (x < 0))
      then Except.error "Negative numbers are not valid clues."
      else Except.ok ((xs.filter (fun x => decide (x ≠ 0))).map Int.toNat)) ∧
    (∀ c, init_clue xs = Except.ok c → ∀ r ∈ c, 1 ≤ r) := by
  refine ⟨init_clue_eq xs, ?_⟩
  intro c hc r hr
  rw [init_clue_eq xs] at hc
  by_cases hany : xs.any (fun x => decide (x < 0)) = true
  · rw [if_pos hany] at hc
    exact absurd hc (by simp)
  · rw [if_neg hany] at hc
    injection hc with hc
    subst hc
    obtain ⟨x, hx, hxr⟩ := List.mem_map.mp hr
    obtain ⟨hxs, hx0⟩ := List.mem_filter.mp hx
    have hnople : ¬ x < 0 := by
      intro hlt
      exact hany (List.any_eq_true.mpr ⟨x, hxs, by simpa using hlt⟩)
    have : 0 < x := by
      rcases lt_trichotomy x 0 with h | h | h
      · exact absurd h hnople
      · exact absurd h (by simpa using hx0)
      · exact h
    omega

theorem init_clue_correct_witness :
    init_clue [(3 : Int), 0] = Except.ok [3] ∧ 1 ≤ 3 :=
  ⟨by rfl, (init_clue_correct [(3 : Int), 0]).2 [3] (by rfl) 3 (by decide)⟩

/-! ## Puzzle trimming -/

theorem dropWhile_replicate_nil_append (a : Nat) (y : List (List Nat)) :
    (List.replicate a ([] : List Nat) ++ y).dropWhile List.isEmpty =
      y.dropWhile List.isEmpty := by
  induction a with
  | zero => rfl
  | succ n ihn =>
    rw [List.replicate_succ, List.cons_append, List.dropWhile_cons_of_pos rfl]
    exact ihn

theorem rdropWhile_append_replicate_nil (b : Nat) (y : List (List Nat)) :
    (y ++ List.replicate b ([] : List Nat)).rdropWhile List.isEmpty =
      y.rdropWhile List.isEmpty := by
  induction b with
  | zero => simp
  | succ n ihn =>
    rw [List.replicate_succ' n, ← List.append_assoc,
      List.rdropWhile_concat_pos _ _ _ rfl]
    exact ihn

theorem init_clues_pad (a b : Nat) (l : List (List Nat)) :
    init_clues (List.replicate a [] ++ l ++ List.replicate b []) =
      init_clues l := by
  unfold init_clues
  rw [List.append_assoc, dropWhile_replicate_nil_append, List.dropWhile_append]
  cases hsplit : (l.dropWhile List.isEmpty).isEmpty with
  | true =>
    have h0 : l.dropWhile List.isEmpty = [] := by
      simpa [List.isEmpty_iff] using hsplit
    have h1 : (List.replicate b ([] : List Nat)).dropWhile List.isEmpty = [] := by
      rw [List.dropWhile_eq_nil_iff]
      intro x hx
      rw [List.eq_of_mem_replicate hx]
      rfl
    simp [h0, h1]
  | false =>
    simp only [Bool.false_eq_true, if_false]
    exact rdropWhile_append_replicate_nil b _

theorem rdropWhile_head_eq (p : List Nat → Bool) (z : List (List Nat))
    (hne : z.rdropWhile p ≠ []) : (z.rdropWhile p).head? = z.head? := by
  obtain ⟨t, ht⟩ := List.dropWhile_suffix (l := z.reverse) p
  have hz : z = (z.reverse.dropWhile p).reverse ++ t.reverse := by
    calc z = z.reverse.reverse := (List.reverse_reverse z).symm
    _ = (t ++ z.reverse.dropWhile p).reverse := by rw [ht]
    _ = (z.reverse.dropWhile p).reverse ++ t.reverse := by
        rw [List.reverse_append]
  have hrd : z.rdropWhile p = (z.reverse.dropWhile p).reverse := by
    simp [List.rdropWhile]
  rw [hrd] at hne ⊢
  conv_rhs => rw [hz]
  rw [List.head?_append]
  cases hh : (z.reverse.dropWhile p).reverse.head? with
  | none => exact absurd (List.head?_eq_none_iff.mp hh) hne
  | some x => rfl

theorem init_clues_head_ne_empty (l : List (List Nat)) :
    (init_clues l).head? ≠ some [] := by
  intro hc
  have hne : init_clues l ≠ [] := by
    intro h
    rw [h] at hc
    exact absurd hc (by simp)
  rw [init_clues] at hc hne
  rw [rdropWhile_head_eq _ _ hne] at hc
  have hne2 : l.dropWhile List.isEmpty ≠ [] := by
    intro h
    rw [h] at hc
    exact absurd hc (by simp)
  have hnot := List.head_dropWhile_not List.isEmpty l hne2
  rw [List.head?_eq_head hne2] at hc
  injection hc with hc
  rw [hc] at hnot
  simp at hnot

theorem init_clues_getLast_ne_empty (l : List (List Nat)) :
    (init_clues l).getLast? ≠ some [] := by
  intro hc
  unfold init_clues at hc
  have hne : (l.dropWhile List.isEmpty).rdropWhile List.isEmpty ≠ [] := by
    intro h
    rw [h] at hc
    exact absurd hc (by simp)
  have hlast := List.rdropWhile_last_not (List.isEmpty)
    (l.dropWhile List.isEmpty) hne
  rw [List.getLast?_eq_getLast _ hne] at hc
  injection hc with hc
  rw [hc] at hlast
  simp at hlast

/-- C8: a Nonogram built with extra empty clues prepended or appended to its
row or column sequences stores exactly the same rows and cols lists as the
Nonogram built without them, and the stored rows and cols lists never begin or
end with an empty clue. -/
theorem nonogram_trim_invariant (a b c d : Nat)
    (rows cols : List (List Nat)) :
    mkNonogram (List.replicate a [] ++ rows ++ List.replicate b [])
        (List.replicate c [] ++ cols ++ List.replicate d []) =
      mkNonogram rows cols ∧
    (mkNonogram rows cols).rows.head? ≠ some [] ∧
    (mkNonogram rows cols).rows.getLast? ≠ some [] ∧
    (mkNonogram rows cols).cols.head? ≠ some [] ∧
    (mkNonogram rows cols).cols.getLast? ≠ some [] := by
  refine ⟨?_, init_clues_head_ne_empty rows, init_clues_getLast_ne_empty rows,
    init_clues_head_ne_empty cols, init_clues_getLast_ne_empty cols⟩
  simp only [mkNonogram, Nonogram.mk.injEq]
  exact ⟨init_clues_pad a b rows, init_clues_pad c d cols⟩

/-! ## Combinations: length, membership, lexicographic order -/

theorem length_combinations (l : List Nat) :
    ∀ k, (combinations k l).length = Nat.choose l.length k := by
  induction l with
  | nil =>
    intro k
    cases k with
    | zero => rfl
    | succ n => rfl
  | cons x xs ih =>
    intro k
    cases k with
    | zero => rfl
    | succ n =>
      show ((combinations n xs).map (fun ys => x :: ys) ++
        combinations (n + 1) xs).length = Nat.choose (xs.length + 1) (n + 1)
      rw [List.length_append, List.length_map, ih n, ih (n + 1),
        Nat.choose_succ_succ]

theorem mem_combinations (l : List Nat) :
    ∀ (k : Nat) (ys : List Nat),
      ys ∈ combinations k l ↔ ys.length = k ∧ ys.Sublist l := by
  induction l with
  | nil =>
    intro k ys
    cases k with
    | zero =>
      simp only [combinations, List.mem_singleton, List.sublist_nil]
      constructor
      · rintro rfl
        exact ⟨rfl, rfl⟩
      · rintro ⟨h1, rfl⟩
        rfl
    | succ n =>
      simp only [combinations, List.not_mem_nil, false_iff, not_and,
        List.sublist_nil]
      intro hlen hnil
      rw [hnil] at hlen
      exact absurd hlen (by simp)
  | cons x xs ih =>
    intro k ys
    cases k with
    | zero =>
      simp only [combinations, List.mem_singleton, List.length_eq_zero]
      constructor
      · rintro rfl
        exact ⟨rfl, List.nil_sublist _⟩
      · rintro ⟨rfl, h2⟩
        rfl
    | succ n =>
      show ys ∈ (combinations n xs).map (fun zs => x :: zs) ++
        combinations (n + 1) xs ↔ _
      rw [List.mem_append, List.mem_map]
      constructor
      · rintro (⟨zs, hzs, rfl⟩ | h)
        · obtain ⟨h1, h2⟩ := (ih n zs).mp hzs
          exact ⟨by simp [h1], List.Sublist.cons₂ x h2⟩
        · obtain ⟨h1, h2⟩ := (ih (n + 1) ys).mp h
          exact ⟨h1, List.Sublist.cons x h2⟩
      · rintro ⟨hlen, hsub⟩
        cases hsub with
        | cons _ h => exact Or.inr ((ih (n + 1) ys).mpr ⟨hlen, h⟩)
        | cons₂ _ h =>
          rename_i zs
          exact Or.inl ⟨zs, (ih n zs).mpr ⟨by simpa using hlen, h⟩, rfl⟩

theorem pairwise_lex_combinations (l : List Nat)
    (hp : List.Pairwise (· < ·) l) :
    ∀ k, List.Pairwise (List.Lex (· < ·)) (combinations k l) := by
  induction l with
  | nil =>
    intro k
    cases k with
    | zero => simp [combinations]
    | succ n => simp [combinations]
  | cons x xs ih =>
    have hxall : ∀ y ∈ xs, x < y := (List.pairwise_cons.mp hp).1
    have hxs : xs.Pairwise (· < ·) := (List.pairwise_cons.mp hp).2
    intro k
    cases k with
    | zero => simp [combinations]
    | succ n =>
      show List.Pairwise _ ((combinations n xs).map (fun ys => x :: ys) ++
        combinations (n + 1) xs)
      rw [List.pairwise_append]
      refine ⟨?_, ih hxs (n + 1), ?_⟩
      · rw [List.pairwise_map]
        exact (ih hxs n).imp (fun h => List.Lex.cons h)
      · intro a ha b hb
        obtain ⟨zs, hzs, rfl⟩ := List.mem_map.mp ha
        obtain ⟨hblen, hbsub⟩ := (mem_combinations xs (n + 1) b).mp hb
        cases b with
        | nil => exact absurd hblen (by simp)
        | cons y bs =>
          have hy : y ∈ xs := hbsub.subset (List.mem_cons_self y bs)
          exact List.Lex.rel (hxall y hy)

theorem lex_lt_irrefl (l : List Nat) : ¬ List.Lex (· < ·) l l := by
  induction l with
  | nil =>
    intro h
    cases h
  | cons x xs ih =>
    intro h
    cases h with
    | cons h => exact ih h
    | rel h => exact absurd h (lt_irrefl x)

/-! ## Runs of structured sequences -/

theorem runsAux_replicate_false_append (d : Nat) (l : List Bool) :
    runsAux 0 (List.replicate d false ++ l) = runsAux 0 l := by
  induction d with
  | zero => rfl
  | succ n ihn =>
    rw [List.replicate_succ, List.cons_append]
    show runsAux 0 (false :: (List.replicate n false ++ l)) = _
    simp only [runsAux, lt_irrefl, if_neg, not_false_eq_true]
    simpa using ihn

theorem runsAux_replicate_true_append (b : Nat) (l : List Bool) :
    ∀ m, runsAux m (List.replicate b true ++ l) = runsAux (m + b) l := by
  induction b with
  | zero => intro m; simp
  | succ n ihn =>
    intro m
    rw [List.replicate_succ, List.cons_append]
    show runsAux (m + 1) (List.replicate n true ++ l) = _
    rw [ihn (m + 1)]
    congr 1
    omega

theorem runsAux_append_false (l : List Bool) :
    ∀ m, runsAux m (l ++ [false]) = runsAux m l := by
  induction l with
  | nil =>
    intro m
    show runsAux m [false] = runsAux m []
    rcases Nat.eq_zero_or_pos m with h | h
    · subst h; rfl
    · simp [runsAux, h]
  | cons b rest ih =>
    intro m
    cases b with
    | true =>
      show runsAux (m + 1) (rest ++ [false]) = runsAux (m + 1) rest
      exact ih (m + 1)
    | false =>
      rcases Nat.eq_zero_or_pos m with h | h
      · subst h
        show runsAux 0 (rest ++ [false]) = runsAux 0 rest
        exact ih 0
      · show (if 0 < m then m :: runsAux 0 (rest ++ [false])
            else runsAux 0 (rest ++ [false])) =
          (if 0 < m then m :: runsAux 0 rest else runsAux 0 rest)
        rw [if_pos h, if_pos h, ih 0]

theorem runsAux_replicate_false (m g : Nat) :
    runsAux m (List.replicate g false) = if 0 < m then [m] else [] := by
  cases g with
  | zero => rfl
  | succ n =>
    rw [List.replicate_succ]
    show (if 0 < m then m :: runsAux 0 (List.replicate n false)
        else runsAux 0 (List.replicate n false)) = _
    have h0 : runsAux 0 (List.replicate n false) = [] := by
      have := runsAux_replicate_false_append n ([] : List Bool)
      simpa using this
    rw [h0]

/-! ## Structure lemmas for `canon` -/

theorem canon_nil_left (xs : List Nat) : canon [] xs = [] := by
  cases xs <;> rfl

theorem canon_single (g : Nat) : canon [g] [] = List.replicate g false := rfl

theorem canon_cons (g x : Nat) (gs xs : List Nat) :
    canon (g :: gs) (x :: xs) =
      List.replicate g false ++ List.replicate x true ++ canon gs xs := rfl

theorem length_canon : ∀ (xs gs : List Nat), gs.length = xs.length + 1 →
    (canon gs xs).length = gs.sum + xs.sum := by
  intro xs
  induction xs with
  | nil =>
    intro gs hlen
    match gs, hlen with
    | [g], _ => simp [canon_single]
  | cons x xs ih =>
    intro gs hlen
    match gs, hlen with
    | g :: gs, hlen =>
      rw [canon_cons]
      simp only [List.length_append, List.length_replicate, List.sum_cons]
      rw [ih gs (by simpa using hlen)]
      omega

theorem runsAux_pending_canon : ∀ (xs gs : List Nat) (m : Nat), 1 ≤ m →
    gs.length = xs.length + 1 → (∀ x ∈ xs, 1 ≤ x) →
    (∀ g ∈ gs.dropLast, 1 ≤ g) →
    runsAux m (canon gs xs) = m :: xs := by
  intro xs
  induction xs with
  | nil =>
    intro gs m hm hlen _ _
    match gs, hlen with
    | [g], _ =>
      rw [canon_single, runsAux_replicate_false, if_pos (by omega)]
  | cons x xs ih =>
    intro gs m hm hlen hx hg
    match gs, hlen with
    | g :: gs, hlen =>
      have hlen2 : gs.length = xs.length + 1 := by simpa using hlen
      have hgs_ne : gs ≠ [] := by
        intro h
        rw [h] at hlen2
        exact absurd hlen2.symm (by simp)
      have hg1 : 1 ≤ g := by
        apply hg
        rw [List.dropLast_cons_of_ne_nil hgs_ne]
        exact List.mem_cons_self _ _
      obtain ⟨d, rfl⟩ : ∃ d, g = d + 1 := ⟨g - 1, by omega⟩
      have hm0 : 0 < m := hm
      rw [canon_cons, List.append_assoc, List.replicate_succ, List.cons_append]
      rw [show runsAux m (false :: (List.replicate d false ++
          (List.replicate x true ++ canon gs xs))) =
        m :: runsAux 0 (List.replicate d false ++
          (List.replicate x true ++ canon gs xs)) from by simp [runsAux, hm0]]
      rw [runsAux_replicate_false_append, runsAux_replicate_true_append _ _ 0]
      simp only [Nat.zero_add]
      congr 1
      exact ih gs x (hx x (List.mem_cons_self x xs)) hlen2
        (fun z hz => hx z (List.mem_cons_of_mem _ hz))
        (fun z hz => hg z (by
          rw [List.dropLast_cons_of_ne_nil hgs_ne]
          exact List.mem_cons_of_mem _ hz))

theorem runs_canon (xs gs : List Nat) (hlen : gs.length = xs.length + 1)
    (hx : ∀ x ∈ xs, 1 ≤ x) (hg : ∀ g ∈ gs.tail.dropLast, 1 ≤ g) :
    runs (canon gs xs) = xs := by
  cases xs with
  | nil =>
    match gs, hlen with
    | [g], _ =>
      rw [canon_single, runs, runsAux_replicate_false]
      simp
  | cons x xs =>
    match gs, hlen with
    | g :: gs, hlen =>
      have hlen2 : gs.length = xs.length + 1 := by simpa using hlen
      rw [canon_cons, List.append_assoc, runs, runsAux_replicate_false_append,
        runsAux_replicate_true_append _ _ 0]
      simp only [Nat.zero_add]
      exact runsAux_pending_canon xs gs x (hx x (List.mem_cons_self x xs))
        hlen2 (fun z hz => hx z (List.mem_cons_of_mem _ hz)) hg

/-! ## Run-start indices of structured sequences -/

theorem startsFrom_nil_right (i : Nat) (gs : List Nat) :
    startsFrom i gs [] = [] := by
  cases gs <;> rfl

theorem runStartsAux_false_flush (d : Nat) :
    ∀ (i : Nat) (l : List Bool),
      runStartsAux i false (List.replicate d false ++ l) =
        runStartsAux (i + d) false l := by
  induction d with
  | zero => intro i l; simp
  | succ m ih =>
    intro i l
    rw [List.replicate_succ, List.cons_append]
    show runStartsAux (i + 1) false (List.replicate m false ++ l) = _
    rw [ih (i + 1) l]
    congr 1
    omega

theorem runStartsAux_true_block (x : Nat) :
    ∀ (j : Nat) (l : List Bool),
      runStartsAux j true (List.replicate x true ++ l) =
        runStartsAux (j + x) true l := by
  induction x with
  | zero => intro j l; simp
  | succ m ih =>
    intro j l
    rw [List.replicate_succ, List.cons_append]
    show runStartsAux (j + 1) true (List.replicate m true ++ l) = _
    rw [ih (j + 1) l]
    congr 1
    omega

theorem runStartsAux_true_start (x i : Nat) (l : List Bool) (hx : 1 ≤ x) :
    runStartsAux i false (List.replicate x true ++ l) =
      i :: runStartsAux (i + x) true l := by
  obtain ⟨m, rfl⟩ : ∃ m, x = m + 1 := ⟨x - 1, by omega⟩
  rw [List.replicate_succ, List.cons_append]
  show i :: runStartsAux (i + 1) true (List.replicate m true ++ l) = _
  rw [runStartsAux_true_block m (i + 1) l]
  congr 2
  omega

theorem runStartsAux_true_flush (g : Nat) (j : Nat) (l : List Bool)
    (hg : 1 ≤ g) :
    runStartsAux j true (List.replicate g false ++ l) =
      runStartsAux (j + g) false l := by
  obtain ⟨d, rfl⟩ : ∃ d, g = d + 1 := ⟨g - 1, by omega⟩
  rw [List.replicate_succ, List.cons_append]
  show runStartsAux (j + 1) false (List.replicate d false ++ l) = _
  rw [runStartsAux_false_flush d (j + 1) l]
  congr 1
  omega

theorem runStartsAux_replicate_false (d : Nat) :
    ∀ (j : Nat) (prev : Bool), runStartsAux j prev (List.replicate d false) = [] := by
  induction d with
  | zero => intro j prev; rfl
  | succ m ih =>
    intro j prev
    rw [List.replicate_succ]
    show runStartsAux (j + 1) false (List.replicate m false) = []
    exact ih (j + 1) false

theorem runStartsAux_canon : ∀ (xs gs : List Nat) (i : Nat),
    gs.length = xs.length + 1 → (∀ x ∈ xs, 1 ≤ x) →
    (∀ g ∈ gs.tail.dropLast, 1 ≤ g) →
    runStartsAux i false (canon gs xs) = startsFrom i gs xs := by
  intro xs
  induction xs with
  | nil =>
    intro gs i hlen _ _
    match gs, hlen with
    | [g], _ =>
      rw [canon_single, runStartsAux_replicate_false, startsFrom_nil_right]
  | cons x xs ih =>
    intro gs i hlen hx hg
    match gs, hlen with
    | g :: gs, hlen =>
      have hlen2 : gs.length = xs.length + 1 := by simpa using hlen
      have hx1 : 1 ≤ x := hx x (List.mem_cons_self x xs)
      rw [canon_cons, List.append_assoc, runStartsAux_false_flush,
        runStartsAux_true_start _ _ _ hx1]
      cases xs with
      | nil =>
        match gs, hlen2 with
        | [g2], _ =>
          rw [canon_single, runStartsAux_replicate_false]
          rfl
      | cons x2 xs2 =>
        match gs, hlen2 with
        | g2 :: gs2, hlen3 =>
          have hgs2 : gs2 ≠ [] := by
            have h4 : gs2.length = xs2.length + 1 := by simpa using hlen3
            intro hcon
            rw [hcon] at h4
            exact absurd h4.symm (by simp)
          have hg2 : 1 ≤ g2 := by
            apply hg
            show g2 ∈ (g2 :: gs2).dropLast
            rw [List.dropLast_cons_of_ne_nil hgs2]
            exact List.mem_cons_self _ _
          have hih := ih (g2 :: gs2) (i + g + x) hlen3
            (fun z hz => hx z (List.mem_cons_of_mem _ hz))
            (by
              intro z hz
              apply hg
              show z ∈ (g2 :: gs2).dropLast
              rw [List.dropLast_cons_of_ne_nil hgs2]
              simp only [List.tail_cons] at hz
              exact List.mem_cons_of_mem _ hz)
          rw [canon_cons, List.append_assoc, runStartsAux_false_flush]
            at hih
          rw [canon_cons, List.append_assoc,
            runStartsAux_true_flush _ _ _ hg2, hih]
          rfl

/-! ## Gap-lists: diffs, decLast, bumpLast -/

theorem diffs_cons_cons (a b : Nat) (l : List Nat) :
    diffs (a :: b :: l) = (b - a) :: diffs (b :: l) := rfl

theorem diffs_pair (a b : Nat) : diffs [a, b] = [b - a] := rfl

theorem diffs_length (l : List Nat) (a : Nat) :
    (diffs (a :: l)).length = l.length := by
  simp [diffs]

theorem diffs_sum : ∀ (ps : List Nat) (c e : Nat),
    List.Chain' (· ≤ ·) (c :: ps ++ [e]) →
    (diffs (c :: ps ++ [e])).sum + c = e := by
  intro ps
  induction ps with
  | nil =>
    intro c e h
    have hce : c ≤ e := (List.chain'_cons.mp h).1
    have hd : diffs ((c :: []) ++ [e]) = [e - c] := rfl
    rw [hd]
    simp
    omega
  | cons p ps ih =>
    intro c e h
    have hd : diffs ((c :: p :: ps) ++ [e]) =
        (p - c) :: diffs ((p :: ps) ++ [e]) := rfl
    rw [hd]
    have h1 : c ≤ p := (List.chain'_cons.mp h).1
    have h2 := ih p e (List.chain'_cons.mp h).2
    simp only [List.sum_cons]
    omega

theorem diffs_pos : ∀ (ps : List Nat) (c e : Nat),
    List.Chain' (· < ·) (c :: ps ++ [e]) →
    ∀ g ∈ diffs (c :: ps ++ [e]), 1 ≤ g := by
  intro ps
  induction ps with
  | nil =>
    intro c e h g hg
    have hce : c < e := (List.chain'_cons.mp h).1
    have hd : diffs ((c :: []) ++ [e]) = [e - c] := rfl
    rw [hd] at hg
    simp at hg
    omega
  | cons p ps ih =>
    intro c e h g hg
    have hd : diffs ((c :: p :: ps) ++ [e]) =
        (p - c) :: diffs ((p :: ps) ++ [e]) := rfl
    rw [hd] at hg
    have h1 : c < p := (List.chain'_cons.mp h).1
    cases hg with
    | head => omega
    | tail _ hg2 => exact ih p e (List.chain'_cons.mp h).2 g hg2

theorem length_decLast : ∀ (l : List Nat), (decLast l).length = l.length := by
  intro l
  induction l with
  | nil => rfl
  | cons g t ih =>
    cases t with
    | nil => rfl
    | cons g2 t2 =>
      show (g :: decLast (g2 :: t2)).length = _
      simpa using ih

theorem decLast_ne_nil (l : List Nat) (h : l ≠ []) : decLast l ≠ [] := by
  intro hcon
  have := length_decLast l
  rw [hcon] at this
  exact h (List.length_eq_zero.mp this.symm)

theorem sum_decLast : ∀ (l : List Nat) (hne : l ≠ []), 1 ≤ l.getLast hne →
    (decLast l).sum + 1 = l.sum := by
  intro l
  induction l with
  | nil => intro hne; exact absurd rfl hne
  | cons g t ih =>
    intro hne hlast
    cases t with
    | nil =>
      show ([g - 1].sum) + 1 = [g].sum
      simp at hlast ⊢
      omega
    | cons g2 t2 =>
      show ((g :: decLast (g2 :: t2)).sum) + 1 = (g :: g2 :: t2).sum
      rw [List.getLast_cons (by simp : (g2 :: t2) ≠ [])] at hlast
      have := ih (by simp) hlast
      simp only [List.sum_cons] at this ⊢
      omega

theorem dropLast_decLast : ∀ (l : List Nat), (decLast l).dropLast = l.dropLast := by
  intro l
  induction l with
  | nil => rfl
  | cons g t ih =>
    cases t with
    | nil => rfl
    | cons g2 t2 =>
      show (g :: decLast (g2 :: t2)).dropLast = (g :: g2 :: t2).dropLast
      rw [List.dropLast_cons_of_ne_nil (decLast_ne_nil _ (by simp)),
        List.dropLast_cons_of_ne_nil (by simp : (g2 :: t2) ≠ [])]
      rw [ih]

theorem decLast_take : ∀ (l : List Nat) (m : Nat), l.length = m + 1 →
    (decLast l).take m = l.take m := by
  intro l
  induction l with
  | nil => intro m h; exact absurd h.symm (by simp)
  | cons g t ih =>
    intro m h
    cases t with
    | nil =>
      have : m = 0 := by simpa using h
      subst this
      rfl
    | cons g2 t2 =>
      obtain ⟨m2, rfl⟩ : ∃ m2, m = m2 + 1 := by
        have : (g2 :: t2).length = m := by simpa using h
        exact ⟨m - 1, by simp at this; omega⟩
      show (g :: decLast (g2 :: t2)).take (m2 + 1) = _
      rw [List.take_succ_cons, List.take_succ_cons,
        ih m2 (by simpa using h)]

theorem bumpLast_cons_cons (g g2 : Nat) (gs : List Nat) :
    bumpLast (g :: g2 :: gs) = g :: bumpLast (g2 :: gs) := rfl

theorem bumpLast_decLast : ∀ (l : List Nat) (hne : l ≠ []),
    1 ≤ l.getLast hne → bumpLast (decLast l) = l := by
  intro l
  induction l with
  | nil => intro hne; exact absurd rfl hne
  | cons g t ih =>
    intro hne hlast
    cases t with
    | nil =>
      show bumpLast [g - 1] = [g]
      simp at hlast
      show [g - 1 + 1] = [g]
      congr 1
      omega
    | cons g2 t2 =>
      show bumpLast (g :: decLast (g2 :: t2)) = g :: g2 :: t2
      rw [List.getLast_cons (by simp : (g2 :: t2) ≠ [])] at hlast
      have hrec := ih (by simp) hlast
      cases hd : decLast (g2 :: t2) with
      | nil => exact absurd hd (decLast_ne_nil _ (by simp))
      | cons a b =>
        rw [bumpLast_cons_cons]
        rw [hd] at hrec
        rw [hrec]

/-! ## Padding and unpadding of `canon` -/

theorem canon_cons_nil (g : Nat) (gs : List Nat) :
    canon (g :: gs) [] = List.replicate g false := rfl

theorem canon_bump_head (g : Nat) (gs xs : List Nat) :
    canon ((g + 1) :: gs) xs = false :: canon (g :: gs) xs := by
  cases xs with
  | nil =>
    rw [canon_cons_nil, canon_cons_nil, List.replicate_succ]
  | cons x xs =>
    rw [canon_cons, canon_cons, List.replicate_succ]
    simp [List.cons_append]

theorem canon_bumpLast : ∀ (xs gs : List Nat), gs.length = xs.length + 1 →
    canon gs xs ++ [false] = canon (bumpLast gs) xs := by
  intro xs
  induction xs with
  | nil =>
    intro gs hlen
    match gs, hlen with
    | [g], _ =>
      show List.replicate g false ++ [false] = canon [g + 1] []
      rw [canon_single, List.replicate_succ']
  | cons x xs ih =>
    intro gs hlen
    match gs, hlen with
    | g :: gs, hlen =>
      have hlen2 : gs.length = xs.length + 1 := by simpa using hlen
      cases gs with
      | nil => exact absurd hlen2.symm (by simp)
      | cons g2 gs2 =>
        rw [canon_cons, bumpLast_cons_cons, canon_cons,
          List.append_assoc, ih (g2 :: gs2) hlen2]

/-! ## From a combination of divider positions to a line solution -/

theorem blocks_eq_canon : ∀ (clue gaps : List Nat),
    gaps.length = clue.length + 1 →
    (gaps.zip (clue ++ [0])).flatMap
      (fun p => List.replicate p.1 false ++ List.replicate p.2 true) =
      canon gaps clue := by
  intro clue
  induction clue with
  | nil =>
    intro gaps hlen
    match gaps, hlen with
    | [g], _ =>
      show ([(g, 0)]).flatMap
        (fun p => List.replicate p.1 false ++ List.replicate p.2 true) = _
      simp [canon_single]
  | cons x clue ih =>
    intro gaps hlen
    match gaps, hlen with
    | g :: gaps, hlen =>
      show ((g, x) :: gaps.zip (clue ++ [0])).flatMap
        (fun p => List.replicate p.1 false ++ List.replicate p.2 true) = _
      rw [List.flatMap_cons, ih gaps (by simpa using hlen), canon_cons]

theorem gaps_to_sol_eq_canon (clue gaps : List Nat)
    (h : gaps.length = clue.length + 1) :
    gaps_to_sol clue gaps = ((canon gaps clue).drop 1).dropLast := by
  unfold gaps_to_sol
  rw [blocks_eq_canon clue gaps h]

theorem unpad_diffs (ps : List Nat) (e : Nat) :
    unpadGaps (diffs ((0 :: ps) ++ [e])) =
      decLast (diffs ((1 :: ps) ++ [e])) := by
  cases ps with
  | nil =>
    show unpadGaps [e - 0] = decLast [e - 1]
    simp [unpadGaps]
  | cons p ps =>
    show unpadGaps ((p - 0) :: diffs ((p :: ps) ++ [e])) =
      decLast ((p - 1) :: diffs ((p :: ps) ++ [e]))
    rw [Nat.sub_zero]
    rfl

theorem startsFrom_congr_take : ∀ (xs gs gs2 : List Nat) (i : Nat),
    gs.take xs.length = gs2.take xs.length →
    startsFrom i gs xs = startsFrom i gs2 xs := by
  intro xs
  induction xs with
  | nil =>
    intro gs gs2 i _
    rw [startsFrom_nil_right, startsFrom_nil_right]
  | cons x xs ih =>
    intro gs gs2 i htake
    cases gs with
    | nil =>
      cases gs2 with
      | nil => rfl
      | cons g2 t2 => exact absurd htake (by simp [List.take_succ_cons])
    | cons g t =>
      cases gs2 with
      | nil => exact absurd htake (by simp [List.take_succ_cons])
      | cons g2 t2 =>
        simp only [List.length_cons] at htake
        rw [List.take_succ_cons, List.take_succ_cons] at htake
        injection htake with h1 h2
        subst h1
        show (i + g) :: startsFrom (i + g + x) t xs =
          (i + g) :: startsFrom (i + g + x) t2 xs
        rw [ih t t2 (i + g + x) h2]

theorem chain_of_combination (k m : Nat) (ps : List Nat)
    (hmem : ps ∈ combinations k (List.range' 1 m)) (e : Nat) (he : m < e) :
    List.Chain' (· < ·) ((0 :: ps) ++ [e]) ∧
      (∀ q ∈ ps, 1 ≤ q ∧ q ≤ m) ∧ ps.length = k := by
  obtain ⟨hlen, hsub⟩ := (mem_combinations _ k ps).mp hmem
  have hbounds : ∀ q ∈ ps, 1 ≤ q ∧ q ≤ m := by
    intro q hq
    have := List.mem_range'_1.mp (hsub.subset hq)
    omega
  have hpair : ps.Pairwise (· < ·) :=
    List.Pairwise.sublist hsub (List.pairwise_lt_range' 1 m)
  refine ⟨?_, hbounds, hlen⟩
  rw [List.chain'_iff_pairwise]
  rw [List.pairwise_append]
  refine ⟨?_, List.pairwise_singleton _ _, ?_⟩
  · rw [List.pairwise_cons]
    exact ⟨fun q hq => by have := hbounds q hq; omega, hpair⟩
  · intro a ha b hb
    rw [List.mem_singleton] at hb
    subst hb
    cases ha with
    | head => omega
    | tail _ h => have := hbounds a h; omega

theorem unpadGaps_tail_dropLast_mem (l : List Nat) :
    ∀ z ∈ (unpadGaps l).tail.dropLast, z ∈ l := by
  cases l with
  | nil => intro z hz; simp [unpadGaps] at hz
  | cons g gs =>
    cases gs with
    | nil =>
      intro z hz
      simp [unpadGaps, decLast] at hz
    | cons g2 gs2 =>
      intro z hz
      have hu : unpadGaps (g :: g2 :: gs2) = (g - 1) :: decLast (g2 :: gs2) :=
        rfl
      rw [hu] at hz
      simp only [List.tail_cons] at hz
      rw [dropLast_decLast] at hz
      exact List.mem_cons_of_mem _ ((List.dropLast_sublist _).subset hz)

theorem candidate_spec (clue : List Nat) (n : Nat) (hpos : ∀ x ∈ clue, 1 ≤ x)
    (ps : List Nat)
    (hmem : ps ∈ combinations clue.length
      (List.range' 1 (n + 2 - clue.sum - 1))) :
    gaps_to_sol clue (diffs ((0 :: ps) ++ [n + 2 - clue.sum])) =
      canon (unpadGaps (diffs ((0 :: ps) ++ [n + 2 - clue.sum]))) clue ∧
    (gaps_to_sol clue (diffs ((0 :: ps) ++ [n + 2 - clue.sum]))).length = n ∧
    runs (gaps_to_sol clue (diffs ((0 :: ps) ++ [n + 2 - clue.sum]))) = clue ∧
    runStarts (gaps_to_sol clue (diffs ((0 :: ps) ++ [n + 2 - clue.sum]))) =
      startsFrom 0 (diffs ((1 :: ps) ++ [n + 2 - clue.sum])) clue := by
  set e := n + 2 - clue.sum with he_def
  have he2 : 2 ≤ e := by
    rcases hclue : clue with _ | ⟨y, ys⟩
    · rw [he_def, hclue]
      simp
    · obtain ⟨hlen, hsub⟩ := (mem_combinations _ _ ps).mp hmem
      rcases hps : ps with _ | ⟨q, qs⟩
      · rw [hps] at hlen
        rw [hclue] at hlen
        exact absurd hlen.symm (by simp)
      · have hq : q ∈ List.range' 1 (e - 1) := by
          rw [hps] at hsub
          exact hsub.subset (List.mem_cons_self _ _)
        have := List.mem_range'_1.mp hq
        omega
  have hcc := chain_of_combination _ _ ps hmem e (by omega)
  have hchain : List.Chain' (· < ·) ((0 :: ps) ++ [e]) := hcc.1
  have hplen : ps.length = clue.length := hcc.2.2
  have hglen : (diffs ((0 :: ps) ++ [e])).length = clue.length + 1 := by
    have h1 : diffs ((0 :: ps) ++ [e]) = diffs (0 :: (ps ++ [e])) := rfl
    rw [h1, diffs_length]
    simp [hplen]
  have hgpos : ∀ g ∈ diffs ((0 :: ps) ++ [e]), 1 ≤ g := diffs_pos ps 0 e hchain
  have hgsum : (diffs ((0 :: ps) ++ [e])).sum = e := by
    have := diffs_sum ps 0 e
      (List.Chain'.imp (fun a b h => Nat.le_of_lt h) hchain)
    omega
  set gaps := diffs ((0 :: ps) ++ [e]) with hgaps_def
  obtain ⟨g0, rest, hg0rest⟩ : ∃ g0 rest, gaps = g0 :: rest := by
    rcases hg : gaps with _ | ⟨a, b⟩
    · rw [hg] at hglen
      exact absurd hglen.symm (by simp)
    · exact ⟨a, b, rfl⟩
  have hg0 : 1 ≤ g0 := hgpos g0 (by rw [hg0rest]; exact List.mem_cons_self _ _)
  have hlast1 : 1 ≤ ((g0 - 1) :: rest).getLast (by simp) := by
    rcases hrest : rest with _ | ⟨r, rs⟩
    · have hsum2 : g0 = e := by
        rw [hg0rest, hrest] at hgsum
        simpa using hgsum
      simp [List.getLast]
      omega
    · rw [List.getLast_cons (by simp : (r :: rs) ≠ [])]
      apply hgpos
      rw [hg0rest, hrest]
      exact List.mem_cons_of_mem _ (List.getLast_mem (by simp))
  have hupd : unpadGaps gaps = decLast ((g0 - 1) :: rest) := by
    rw [hg0rest]
    rfl
  have hupdlen : (unpadGaps gaps).length = clue.length + 1 := by
    rw [hupd, length_decLast]
    rw [hg0rest] at hglen
    simpa using hglen
  have hdeclen : (decLast ((g0 - 1) :: rest)).length = clue.length + 1 := by
    rw [← hupd]
    exact hupdlen
  have hshape : gaps_to_sol clue gaps = canon (unpadGaps gaps) clue := by
    rw [gaps_to_sol_eq_canon clue gaps hglen, hupd, hg0rest]
    obtain ⟨d, hd⟩ : ∃ d, g0 = d + 1 := ⟨g0 - 1, by omega⟩
    have hdec : ((d + 1) - 1 : Nat) = d := by omega
    rw [hd, canon_bump_head]
    simp only [List.drop_succ_cons, List.drop_zero]
    have hbl : bumpLast (decLast (d :: rest)) = d :: rest := by
      apply bumpLast_decLast
      rw [hd] at hlast1
      simp only [Nat.add_sub_cancel] at hlast1
      exact hlast1
    have hdl2 : (decLast (d :: rest)).length = clue.length + 1 := by
      rw [hd] at hdeclen
      rw [hdec] at hdeclen
      exact hdeclen
    calc (canon (d :: rest) clue).dropLast
        = (canon (bumpLast (decLast (d :: rest))) clue).dropLast := by
          rw [hbl]
      _ = (canon (decLast (d :: rest)) clue ++ [false]).dropLast := by
          rw [← canon_bumpLast clue _ hdl2]
      _ = canon (decLast (d :: rest)) clue := List.dropLast_concat
      _ = canon (decLast ((d + 1 - 1) :: rest)) clue := by rw [hdec]
  have hupdinner : ∀ z ∈ (unpadGaps gaps).tail.dropLast, 1 ≤ z :=
    fun z hz => hgpos z (unpadGaps_tail_dropLast_mem gaps z hz)
  have hupdsum : (unpadGaps gaps).sum = e - 2 := by
    rw [hupd]
    have hsd := sum_decLast ((g0 - 1) :: rest) (by simp) hlast1
    have hsum1 : ((g0 - 1) :: rest).sum + 1 = e := by
      rw [hg0rest] at hgsum
      simp only [List.sum_cons] at hgsum ⊢
      omega
    omega
  refine ⟨hshape, ?_, ?_, ?_⟩
  · rw [hshape, length_canon clue _ hupdlen, hupdsum]
    omega
  · rw [hshape]
    exact runs_canon clue _ hupdlen hpos hupdinner
  · rw [hshape]
    have h1 : runStarts (canon (unpadGaps gaps) clue) =
        startsFrom 0 (unpadGaps gaps) clue :=
      runStartsAux_canon clue (unpadGaps gaps) 0 hupdlen hpos hupdinner
    rw [h1, hgaps_def, unpad_diffs]
    apply startsFrom_congr_take
    apply decLast_take
    have h2 : diffs ((1 :: ps) ++ [e]) = diffs (1 :: (ps ++ [e])) := rfl
    rw [h2, diffs_length]
    simp [hplen]

/-! ## The enumerator: count, soundness, ordering, distinctness -/

theorem clue_solutions_eq (clue : List Nat) (n : Nat) :
    clue_solutions clue n =
      (combinations clue.length
        (List.range' 1 (n + 2 - clue.sum - 1))).map
        (fun ps =>
          gaps_to_sol clue (diffs ((0 :: ps) ++ [n + 2 - clue.sum]))) := rfl

theorem length_clue_solutions (clue : List Nat) (n : Nat) :
    (clue_solutions clue n).length =
      Nat.choose (n + 1 - clue.sum) clue.length := by
  rw [clue_solutions_eq, List.length_map, length_combinations,
    List.length_range']
  congr 1
  omega

theorem clue_solutions_sound (clue : List Nat) (n : Nat)
    (hpos : ∀ x ∈ clue, 1 ≤ x) :
    ∀ s ∈ clue_solutions clue n, s.length = n ∧ runs s = clue := by
  intro s hs
  rw [clue_solutions_eq] at hs
  obtain ⟨ps, hps, rfl⟩ := List.mem_map.mp hs
  have h := candidate_spec clue n hpos ps hps
  exact ⟨h.2.1, h.2.2.1⟩

theorem startsFrom_lex : ∀ (xs ps qs : List Nat) (a c e f : Nat),
    ps.length = xs.length → qs.length = xs.length →
    (∀ z ∈ ps, c ≤ z) → (∀ z ∈ qs, c ≤ z) →
    List.Pairwise (· < ·) ps → List.Pairwise (· < ·) qs →
    List.Lex (· < ·) ps qs →
    List.Lex (· < ·) (startsFrom a (diffs ((c :: ps) ++ [e])) xs)
      (startsFrom a (diffs ((c :: qs) ++ [f])) xs) := by
  intro xs
  induction xs with
  | nil =>
    intro ps qs a c e f hl1 hl2 _ _ _ _ hlex
    obtain rfl : ps = [] := List.length_eq_zero.mp hl1
    obtain rfl : qs = [] := List.length_eq_zero.mp hl2
    cases hlex
  | cons x xs ih =>
    intro ps qs a c e f hl1 hl2 hb1 hb2 hp1 hp2 hlex
    match ps, hl1 with
    | p :: ps, hl1 =>
      match qs, hl2 with
      | q :: qs, hl2 =>
        have hd1 : diffs ((c :: p :: ps) ++ [e]) =
            (p - c) :: diffs ((p :: ps) ++ [e]) := rfl
        have hd2 : diffs ((c :: q :: qs) ++ [f]) =
            (q - c) :: diffs ((q :: qs) ++ [f]) := rfl
        rw [hd1, hd2]
        show List.Lex (· < ·)
          ((a + (p - c)) :: startsFrom (a + (p - c) + x)
            (diffs ((p :: ps) ++ [e])) xs)
          ((a + (q - c)) :: startsFrom (a + (q - c) + x)
            (diffs ((q :: qs) ++ [f])) xs)
        cases hlex with
        | rel h =>
          refine List.Lex.rel ?_
          have hcp : c ≤ p := hb1 p (List.mem_cons_self _ _)
          have hcq : c ≤ q := hb2 q (List.mem_cons_self _ _)
          omega
        | cons h =>
          refine List.Lex.cons ?_
          have hps2 : ∀ z ∈ ps, p ≤ z :=
            fun z hz => Nat.le_of_lt ((List.pairwise_cons.mp hp1).1 z hz)
          have hqs2 : ∀ z ∈ qs, p ≤ z :=
            fun z hz => Nat.le_of_lt ((List.pairwise_cons.mp hp2).1 z hz)
          exact ih ps qs (a + (p - c) + x) p e f (by simpa using hl1)
            (by simpa using hl2) hps2 hqs2
            (List.pairwise_cons.mp hp1).2 (List.pairwise_cons.mp hp2).2 h

theorem enumerator_e_ge_two (clue : List Nat) (n : Nat) (ps : List Nat)
    (hmem : ps ∈ combinations clue.length
      (List.range' 1 (n + 2 - clue.sum - 1))) :
    2 ≤ n + 2 - clue.sum := by
  by_cases hclue : clue = []
  · subst hclue
    simp
  · obtain ⟨hlen, hsub⟩ := (mem_combinations _ _ ps).mp hmem
    have hplen : 1 ≤ ps.length := by
      rw [hlen]
      exact List.length_pos.mpr hclue
    cases ps with
    | nil => simp at hplen
    | cons q qs =>
      have hq : q ∈ List.range' 1 (n + 2 - clue.sum - 1) :=
        hsub.subset (List.mem_cons_self _ _)
      have := List.mem_range'_1.mp hq
      omega

theorem clue_solutions_pairwise (clue : List Nat) (n : Nat)
    (hpos : ∀ x ∈ clue, 1 ≤ x) :
    List.Pairwise (fun s t => List.Lex (· < ·) (runStarts s) (runStarts t))
      (clue_solutions clue n) := by
  rw [clue_solutions_eq, List.pairwise_map]
  have hcomb := pairwise_lex_combinations
    (List.range' 1 (n + 2 - clue.sum - 1))
    (List.pairwise_lt_range' 1 _) clue.length
  refine List.Pairwise.imp_of_mem ?_ hcomb
  intro ps qs hps hqs hlex
  have h1 := candidate_spec clue n hpos ps hps
  have h2 := candidate_spec clue n hpos qs hqs
  rw [h1.2.2.2, h2.2.2.2]
  have he2 := enumerator_e_ge_two clue n ps hps
  have hcc1 := chain_of_combination _ _ ps hps (n + 2 - clue.sum) (by omega)
  have hcc2 := chain_of_combination _ _ qs hqs (n + 2 - clue.sum) (by omega)
  obtain ⟨hlen1, hsub1⟩ := (mem_combinations _ _ ps).mp hps
  obtain ⟨hlen2, hsub2⟩ := (mem_combinations _ _ qs).mp hqs
  exact startsFrom_lex clue ps qs 0 1 (n + 2 - clue.sum) (n + 2 - clue.sum)
    hlen1 hlen2 (fun z hz => (hcc1.2.1 z hz).1) (fun z hz => (hcc2.2.1 z hz).1)
    (List.Pairwise.sublist hsub1 (List.pairwise_lt_range' 1 _))
    (List.Pairwise.sublist hsub2 (List.pairwise_lt_range' 1 _)) hlex

theorem clue_solutions_nodup (clue : List Nat) (n : Nat)
    (hpos : ∀ x ∈ clue, 1 ≤ x) : (clue_solutions clue n).Nodup := by
  have hp := clue_solutions_pairwise clue n hpos
  exact hp.imp (fun {s t} h => by
    intro heq
    subst heq
    exact lex_lt_irrefl _ h)

/-- C3: for every Nonoclue (stored run lengths all positive) and every target
length `n`, the sequences yielded by `ClueSolutions` are pairwise distinct,
each has length exactly `n` and satisfies the clue, and the number of
sequences yielded equals the closed-form count `C(n+1-X, p)`. -/
theorem clue_solutions_correct (clue : List Nat) (n : Nat)
    (hpos : ∀ x ∈ clue, 0 < x) :
    (clue_solutions clue n).Nodup ∧
    (∀ s ∈ clue_solutions clue n,
      s.length = n ∧ satisfied_by clue s = true) ∧
    (clue_solutions clue n).length =
      Nat.choose (n + 1 - clue.sum) clue.length := by
  refine ⟨clue_solutions_nodup clue n hpos, ?_, length_clue_solutions clue n⟩
  intro s hs
  obtain ⟨h1, h2⟩ := clue_solutions_sound clue n hpos s hs
  exact ⟨h1, (satisfied_iff_runs clue s).mpr h2⟩

theorem clue_solutions_correct_witness :
    (∀ x ∈ [1], 0 < x) ∧
    ((clue_solutions [1] 2).Nodup ∧
      (∀ s ∈ clue_solutions [1] 2,
        s.length = 2 ∧ satisfied_by [1] s = true) ∧
      (clue_solutions [1] 2).length = Nat.choose 2 1) :=
  ⟨by decide, clue_solutions_correct [1] 2 (by decide)⟩

/-- C9: for every Nonoclue and target length, `ClueSolutions` yields its
solutions in ascending lexicographic order of the tuple of starting positions
of the filled runs. -/
theorem clue_solutions_lex_ordered (clue : List Nat) (n : Nat)
    (hpos : ∀ x ∈ clue, 0 < x) :
    List.Pairwise (fun s t => List.Lex (· < ·) (runStarts s) (runStarts t))
      (clue_solutions clue n) :=
  clue_solutions_pairwise clue n hpos

theorem clue_solutions_lex_ordered_witness :
    (∀ x ∈ [1], 0 < x) ∧
    List.Pairwise (fun s t => List.Lex (· < ·) (runStarts s) (runStarts t))
      (clue_solutions [1] 2) :=
  ⟨by decide, clue_solutions_lex_ordered [1] 2 (by decide)⟩

/-! ## Decomposition of a satisfying sequence -/

theorem runsAux_pos_ne_nil : ∀ (s : List Bool) (m : Nat), 1 ≤ m →
    runsAux m s ≠ [] := by
  intro s
  induction s with
  | nil =>
    intro m hm
    show (if 0 < m then [m] else []) ≠ []
    rw [if_pos (show 0 < m by omega)]
    simp
  | cons b rest ih =>
    intro m hm
    cases b with
    | true =>
      show runsAux (m + 1) rest ≠ []
      exact ih (m + 1) (by omega)
    | false =>
      show (if 0 < m then m :: runsAux 0 rest else runsAux 0 rest) ≠ []
      rw [if_pos (show 0 < m by omega)]
      simp

theorem runs_eq_nil_all_false : ∀ (s : List Bool), runs s = [] →
    ∀ b ∈ s, b = false := by
  intro s
  induction s with
  | nil => intro _ b hb; simp at hb
  | cons c rest ih =>
    intro hruns b hb
    cases c with
    | true =>
      exact absurd hruns (runsAux_pos_ne_nil rest 1 (by omega))
    | false =>
      have hr : runs rest = [] := by
        have : runs (false :: rest) = runs rest := by
          show (if 0 < 0 then (0 : Nat) :: runsAux 0 rest
            else runsAux 0 rest) = runsAux 0 rest
          simp
        rw [← this]
        exact hruns
      cases hb with
      | head => rfl
      | tail _ hmem => exact ih hr b hmem

theorem runsAux_block_decomp : ∀ (t : List Bool) (m x : Nat) (xs : List Nat),
    1 ≤ m → runsAux m t = x :: xs →
    m ≤ x ∧ ∃ rest, t = List.replicate (x - m) true ++ rest ∧
      runsAux 0 rest = xs ∧ (rest = [] ∨ rest.head? = some false) := by
  intro t
  induction t with
  | nil =>
    intro m x xs hm heq
    rw [show runsAux m [] = if 0 < m then [m] else [] from rfl,
      if_pos (show 0 < m by omega)] at heq
    injection heq with h1 h2
    refine ⟨by omega, [], by simp [h1], by rw [← h2]; rfl, Or.inl rfl⟩
  | cons b rest ih =>
    intro m x xs hm heq
    cases b with
    | true =>
      have heq2 : runsAux (m + 1) rest = x :: xs := heq
      obtain ⟨hle, r2, hr2, hr3, hr4⟩ := ih (m + 1) x xs (by omega) heq2
      refine ⟨by omega, r2, ?_, hr3, hr4⟩
      have hx : x - m = (x - (m + 1)) + 1 := by omega
      rw [hx, List.replicate_succ, List.cons_append, hr2]
    | false =>
      have heq2 : (if 0 < m then m :: runsAux 0 rest
          else runsAux 0 rest) = x :: xs := heq
      rw [if_pos (show 0 < m by omega)] at heq2
      injection heq2 with h1 h2
      refine ⟨by omega, false :: rest, by simp [h1], h2, Or.inr rfl⟩

theorem runs_decomp : ∀ (xs : List Nat) (s : List Bool), runs s = xs →
    ∃ g0 gs, (g0 :: gs).length = xs.length + 1 ∧
      (∀ g ∈ (g0 :: gs).tail.dropLast, 1 ≤ g) ∧
      g0 = (s.takeWhile (fun b => b = false)).length ∧
      s = canon (g0 :: gs) xs := by
  intro xs
  induction xs with
  | nil =>
    intro s hruns
    have hall := runs_eq_nil_all_false s hruns
    have hrepl : s = List.replicate s.length false :=
      List.eq_replicate_of_mem hall
    have htake : s.takeWhile (fun b => b = false) = s :=
      List.takeWhile_eq_self_iff.mpr (fun b hb => by simp [hall b hb])
    refine ⟨s.length, [], rfl, by simp, by rw [htake], ?_⟩
    rw [canon_single]
    conv_lhs => rw [hrepl]
  | cons x xs ih =>
    intro s hruns
    set d := (s.takeWhile (fun b => b = false)).length with hd_def
    set t := s.dropWhile (fun b => b = false) with ht_def
    have htake : s.takeWhile (fun b => b = false) =
        List.replicate d false := by
      apply List.eq_replicate_of_mem
      intro b hb
      have := List.mem_takeWhile_imp hb
      simpa using this
    have hsplit : s = List.replicate d false ++ t := by
      conv_lhs => rw [← List.takeWhile_append_dropWhile
        (fun b => decide (b = false)) s]
      rw [← htake]
    have hrt : runsAux 0 t = x :: xs := by
      have h1 : runs s = runsAux 0 t := by
        conv_lhs => rw [runs, hsplit]
        exact runsAux_replicate_false_append d t
      rw [← h1, hruns]
    have ht_ne : t ≠ [] := by
      intro hcon
      rw [hcon] at hrt
      exact absurd hrt (by rw [show runsAux 0 [] = [] from rfl]; simp)
    have hhead : t.head ht_ne = true := by
      have h2 := List.head_dropWhile_not (fun b => decide (b = false)) s ht_ne
      rw [decide_eq_false_iff_not] at h2
      cases hb : t.head ht_ne with
      | false => exact absurd hb h2
      | true => rfl
    obtain ⟨t2, ht2⟩ : ∃ t2, t = true :: t2 := by
      cases hc : t with
      | nil => exact absurd hc ht_ne
      | cons a t2 =>
        refine ⟨t2, ?_⟩
        have ha : a = true := by
          rw [← hhead]
          simp [hc]
        rw [ha]
    have hrt2 : runsAux 1 t2 = x :: xs := by
      rw [← hrt, ht2]
      rfl
    obtain ⟨hx1, rest, hrest_eq, hrest_runs, hrest_head⟩ :=
      runsAux_block_decomp t2 1 x xs (le_refl 1) hrt2
    obtain ⟨h0, hs, hlen2, hinner2, hh0, hshape2⟩ := ih rest hrest_runs
    refine ⟨d, h0 :: hs, by simpa using hlen2, ?_, hd_def, ?_⟩
    · intro g hg
      simp only [List.tail_cons] at hg
      cases hhs : hs with
      | nil =>
        rw [hhs] at hg
        simp at hg
      | cons h1 hs2 =>
        rw [hhs] at hg
        rw [List.dropLast_cons_of_ne_nil (by simp)] at hg
        cases hg with
        | head =>
          have hxs_ne : xs ≠ [] := by
            intro hcon
            rw [hcon, hhs] at hlen2
            simp at hlen2
          have hrest_ne : rest ≠ [] := by
            intro hcon
            rw [hcon] at hrest_runs
            exact hxs_ne (by
              rw [← hrest_runs]
              rfl)
          have hfalse : rest.head? = some false := by
            cases hrest_head with
            | inl h => exact absurd h hrest_ne
            | inr h => exact h
          obtain ⟨r2, hr2⟩ : ∃ r2, rest = false :: r2 := by
            cases hc : rest with
            | nil => exact absurd hc hrest_ne
            | cons a r2 =>
              rw [hc] at hfalse
              simp at hfalse
              exact ⟨r2, by rw [hfalse]⟩
          rw [hh0, hr2]
          simp [List.takeWhile_cons]
        | tail _ hmem =>
          apply hinner2
          rw [hhs]
          simpa using hmem
    · have hT : List.replicate x true = true :: List.replicate (x - 1) true := by
        have : x = (x - 1) + 1 := by omega
        rw [this]
        rw [List.replicate_succ]
        rfl
      rw [canon_cons, ← hshape2, List.append_assoc]
      rw [hsplit, ht2, hrest_eq, hT]
      rfl

/-! ## Reconstructing divider positions -/

theorem length_bumpLast : ∀ (l : List Nat), (bumpLast l).length = l.length := by
  intro l
  induction l with
  | nil => rfl
  | cons g t ih =>
    cases t with
    | nil => rfl
    | cons g2 t2 =>
      show (g :: bumpLast (g2 :: t2)).length = _
      simpa using ih

theorem sum_bumpLast : ∀ (l : List Nat), l ≠ [] →
    (bumpLast l).sum = l.sum + 1 := by
  intro l
  induction l with
  | nil => intro h; exact absurd rfl h
  | cons g t ih =>
    intro _
    cases t with
    | nil =>
      show ([g + 1] : List Nat).sum = [g].sum + 1
      simp
    | cons g2 t2 =>
      show (g :: bumpLast (g2 :: t2)).sum = (g :: g2 :: t2).sum + 1
      have := ih (by simp)
      simp only [List.sum_cons] at this ⊢
      omega

theorem bumpLast_pos : ∀ (l : List Nat), (∀ g ∈ l.dropLast, 1 ≤ g) →
    ∀ z ∈ bumpLast l, 1 ≤ z := by
  intro l
  induction l with
  | nil => intro _ z hz; simp [bumpLast] at hz
  | cons g t ih =>
    intro hd z hz
    cases t with
    | nil =>
      have : z = g + 1 := by simpa [bumpLast] using hz
      omega
    | cons g2 t2 =>
      rw [show bumpLast (g :: g2 :: t2) = g :: bumpLast (g2 :: t2) from rfl]
        at hz
      cases hz with
      | head =>
        apply hd
        rw [List.dropLast_cons_of_ne_nil (by simp)]
        exact List.mem_cons_self _ _
      | tail _ hmem =>
        refine ih ?_ z hmem
        intro w hw
        apply hd
        rw [List.dropLast_cons_of_ne_nil (by simp)]
        exact List.mem_cons_of_mem _ hw

theorem accpos_diffs : ∀ (G : List Nat) (c : Nat), G ≠ [] →
    diffs ((c :: accpos c G) ++ [c + G.sum]) = G := by
  intro G
  induction G with
  | nil => intro c h; exact absurd rfl h
  | cons g G ih =>
    intro c _
    cases G with
    | nil =>
      have h1 : diffs ((c :: accpos c [g]) ++ [c + ([g] : List Nat).sum]) =
          [(c + ([g] : List Nat).sum) - c] := rfl
      rw [h1]
      simp
    | cons a t =>
      have h1 : accpos c (g :: a :: t) = (c + g) :: accpos (c + g) (a :: t) :=
        rfl
      rw [h1]
      have h2 : diffs ((c :: (c + g) :: accpos (c + g) (a :: t)) ++
          [c + (g :: a :: t).sum]) =
          ((c + g) - c) :: diffs (((c + g) :: accpos (c + g) (a :: t)) ++
            [c + (g :: a :: t).sum]) := rfl
      rw [h2, Nat.add_sub_cancel_left]
      congr 1
      have h3 : c + (g :: a :: t).sum = (c + g) + (a :: t).sum := by
        simp only [List.sum_cons]
        omega
      rw [h3]
      exact ih (c + g) (by simp)

theorem accpos_facts : ∀ (G : List Nat) (c : Nat), (∀ g ∈ G, 1 ≤ g) →
    List.Pairwise (· < ·) (accpos c G) ∧
    (∀ z ∈ accpos c G, c + 1 ≤ z ∧ z + 1 ≤ c + G.sum) ∧
    (accpos c G).length = G.length - 1 := by
  intro G
  induction G with
  | nil =>
    intro c _
    refine ⟨List.Pairwise.nil, ?_, rfl⟩
    intro z hz
    simp [accpos] at hz
  | cons g G ih =>
    intro c hpos
    cases G with
    | nil =>
      refine ⟨List.Pairwise.nil, ?_, rfl⟩
      intro z hz
      simp [accpos] at hz
    | cons a t =>
      have h1 : accpos c (g :: a :: t) = (c + g) :: accpos (c + g) (a :: t) :=
        rfl
      have hg : 1 ≤ g := hpos g (List.mem_cons_self _ _)
      have ha : 1 ≤ a := hpos a (List.mem_cons_of_mem _ (List.mem_cons_self _ _))
      have hrec := ih (c + g) (fun w hw => hpos w (List.mem_cons_of_mem _ hw))
      rw [h1]
      refine ⟨?_, ?_, ?_⟩
      · rw [List.pairwise_cons]
        exact ⟨fun z hz => by have := (hrec.2.1 z hz).1; omega, hrec.1⟩
      · intro z hz
        cases hz with
        | head =>
          have hsum : 1 ≤ (a :: t).sum := by
            simp only [List.sum_cons]
            omega
          simp only [List.sum_cons]
          omega
        | tail _ hmem =>
          have := hrec.2.1 z hmem
          simp only [List.sum_cons] at this ⊢
          omega
      · have := hrec.2.2
        simp only [List.length_cons] at this ⊢
        omega

theorem sorted_sublist_range' : ∀ (m : Nat) (l : List Nat) (s : Nat),
    List.Pairwise (· < ·) l → (∀ z ∈ l, s ≤ z ∧ z < s + m) →
    l.Sublist (List.range' s m) := by
  intro m
  induction m with
  | zero =>
    intro l s _ hb
    cases l with
    | nil => exact List.nil_sublist _
    | cons a l2 =>
      have := hb a (List.mem_cons_self _ _)
      omega
  | succ m ih =>
    intro l s hp hb
    rw [List.range'_succ]
    cases l with
    | nil => exact List.nil_sublist _
    | cons a l2 =>
      by_cases ha : a = s
      · subst ha
        refine List.Sublist.cons₂ a ?_
        refine ih l2 (a + 1) (List.pairwise_cons.mp hp).2 ?_
        intro z hz
        have h1 := (List.pairwise_cons.mp hp).1 z hz
        have h2 := hb z (List.mem_cons_of_mem _ hz)
        omega
      · refine List.Sublist.cons s ?_
        refine ih (a :: l2) (s + 1) hp ?_
        intro z hz
        have h2 := hb z hz
        cases hz with
        | head =>
          have := hb a (List.mem_cons_self _ _)
          omega
        | tail _ hmem =>
          have h3 := (List.pairwise_cons.mp hp).1 z hmem
          have h4 := hb a (List.mem_cons_self _ _)
          omega

theorem clue_solutions_complete (clue : List Nat) (n : Nat) (s : List Bool)
    (hlen : s.length = n) (hruns : runs s = clue) :
    s ∈ clue_solutions clue n := by
  obtain ⟨g0, gs, hglen, hinner, hg0take, hshape⟩ := runs_decomp clue s hruns
  set G := bumpLast ((g0 + 1) :: gs) with hG_def
  have hGlen : G.length = clue.length + 1 := by
    rw [hG_def, length_bumpLast]
    simpa using hglen
  have hGne : G ≠ [] := by
    intro h
    rw [h] at hGlen
    exact absurd hGlen.symm (by simp)
  have hsum0 : s.length = (g0 :: gs).sum + clue.sum := by
    rw [hshape]
    exact length_canon clue (g0 :: gs) hglen
  rw [hlen] at hsum0
  have hGsum : G.sum = n + 2 - clue.sum := by
    rw [hG_def, sum_bumpLast _ (by simp)]
    simp only [List.sum_cons] at hsum0 ⊢
    omega
  have hGpos : ∀ z ∈ G, 1 ≤ z := by
    rw [hG_def]
    apply bumpLast_pos
    intro g hg
    cases hgs : gs with
    | nil =>
      rw [hgs] at hg
      simp at hg
    | cons a t =>
      rw [hgs] at hg
      rw [List.dropLast_cons_of_ne_nil (by simp)] at hg
      cases hg with
      | head => omega
      | tail _ hmem =>
        apply hinner
        rw [hgs]
        simpa using hmem
  set ps := accpos 0 G with hps_def
  have hacc := accpos_facts G 0 hGpos
  have hpslen : ps.length = clue.length := by
    have h1 := hacc.2.2
    rw [hGlen] at h1
    simpa using h1
  have hdiffs : diffs ((0 :: ps) ++ [n + 2 - clue.sum]) = G := by
    have h2 := accpos_diffs G 0 hGne
    rw [show (0 : Nat) + G.sum = G.sum by omega] at h2
    rw [← hGsum]
    exact h2
  have hmem2 : ps ∈ combinations clue.length
      (List.range' 1 (n + 2 - clue.sum - 1)) := by
    rw [mem_combinations]
    refine ⟨hpslen, ?_⟩
    apply sorted_sublist_range'
    · exact hacc.1
    · intro z hz
      have h3 := hacc.2.1 z hz
      rw [hGsum] at h3
      omega
  rw [clue_solutions_eq]
  apply List.mem_map.mpr
  refine ⟨ps, hmem2, ?_⟩
  rw [hdiffs, gaps_to_sol_eq_canon clue G hGlen]
  have hcanonG : canon G clue = (false :: s) ++ [false] := by
    rw [hG_def, ← canon_bumpLast clue ((g0 + 1) :: gs) (by simpa using hglen)]
    rw [canon_bump_head, ← hshape]
  rw [hcanonG]
  rw [show ((false :: s) ++ [false]).drop 1 = s ++ [false] from rfl]
  exact List.dropLast_concat

/-! ## Length bound for satisfying sequences -/

theorem runs_sum_length_bound : ∀ (s : List Bool) (m : Nat),
    (runsAux m s).sum + (runsAux m s).length ≤ m + s.length + 1 := by
  intro s
  induction s with
  | nil =>
    intro m
    rcases Nat.eq_zero_or_pos m with h | h
    · subst h
      simp [show runsAux 0 [] = [] from rfl]
    · rw [show runsAux m [] = if 0 < m then [m] else [] from rfl, if_pos h]
      simp
  | cons b rest ih =>
    intro m
    cases b with
    | true =>
      have := ih (m + 1)
      rw [show runsAux m (true :: rest) = runsAux (m + 1) rest from rfl]
      simp only [List.length_cons] at this ⊢
      omega
    | false =>
      rcases Nat.eq_zero_or_pos m with h | h
      · subst h
        have := ih 0
        rw [show runsAux 0 (false :: rest) = runsAux 0 rest from by
          simp [runsAux]]
        simp only [List.length_cons]
        omega
      · rw [show runsAux m (false :: rest) =
          if 0 < m then m :: runsAux 0 rest else runsAux 0 rest from rfl,
          if_pos h]
        have := ih 0
        simp only [List.sum_cons, List.length_cons] at this ⊢
        omega

theorem satisfied_length_bound (clue : List Nat) (s : List Bool)
    (h : runs s = clue) : clue.sum + clue.length ≤ s.length + 1 := by
  rw [← h]
  have := runs_sum_length_bound s 0
  simpa using this

/-! ## Grid iteration: pyProduct and listProd -/

theorem mem_pyProduct {α : Type} (pool : List α) :
    ∀ (n : Nat) (xs : List α),
      xs ∈ pyProduct pool n ↔ xs.length = n ∧ ∀ a ∈ xs, a ∈ pool := by
  intro n
  induction n with
  | zero =>
    intro xs
    show xs ∈ [[]] ↔ _
    simp [List.length_eq_zero, eq_comm]
    intro h
    subst h
    simp
  | succ n ih =>
    intro xs
    show xs ∈ pool.flatMap
      (fun x => (pyProduct pool n).map (fun t => x :: t)) ↔ _
    rw [List.mem_flatMap]
    constructor
    · rintro ⟨x, hx, hxs⟩
      obtain ⟨t, ht, rfl⟩ := List.mem_map.mp hxs
      obtain ⟨h1, h2⟩ := (ih t).mp ht
      refine ⟨by simp [h1], ?_⟩
      intro a ha
      cases ha with
      | head => exact hx
      | tail _ hmem => exact h2 a hmem
    · rintro ⟨hlen, hmem⟩
      cases xs with
      | nil => exact absurd hlen.symm (by simp)
      | cons x t =>
        refine ⟨x, hmem x (List.mem_cons_self _ _), ?_⟩
        apply List.mem_map.mpr
        refine ⟨t, (ih t).mpr ⟨by simpa using hlen,
          fun a ha => hmem a (List.mem_cons_of_mem _ ha)⟩, rfl⟩

theorem mem_listProd {α : Type} :
    ∀ (Ls : List (List α)) (xs : List α),
      xs ∈ listProd Ls ↔ List.Forall₂ (· ∈ ·) xs Ls := by
  intro Ls
  induction Ls with
  | nil =>
    intro xs
    show xs ∈ [[]] ↔ _
    rw [List.forall₂_nil_right_iff]
    simp [eq_comm]
  | cons L Ls ih =>
    intro xs
    show xs ∈ L.flatMap (fun x => (listProd Ls).map (fun t => x :: t)) ↔ _
    rw [List.mem_flatMap]
    constructor
    · rintro ⟨x, hx, hxs⟩
      obtain ⟨t, ht, rfl⟩ := List.mem_map.mp hxs
      exact List.Forall₂.cons hx ((ih t).mp ht)
    · intro hf
      cases hf with
      | cons hx ht =>
        rename_i x t
        exact ⟨x, hx, List.mem_map.mpr ⟨t, (ih t).mpr ht, rfl⟩⟩

/-! ## Satisfaction counting on grids -/

theorem sat_count_le (g : Nonogram) (grid : List (List Bool)) :
    satisfied_count g grid ≤ num_clues g := by
  unfold satisfied_count num_clues
  have h1 := List.countP_le_length
    (p := fun rc : List Nat × List Bool => satisfied_by rc.1 rc.2)
    (l := g.rows.zip grid)
  have h2 := List.countP_le_length
    (p := fun cc : List Nat × List Bool => satisfied_by cc.1 cc.2)
    (l := g.cols.zip (gridCols g.cols.length grid))
  have h3 : (g.rows.zip grid).length ≤ g.rows.length := by
    rw [List.length_zip]
    omega
  have h4 : (g.cols.zip (gridCols g.cols.length grid)).length ≤
      g.cols.length := by
    rw [List.length_zip]
    omega
  omega

theorem length_gridCols (w : Nat) (grid : List (List Bool)) :
    (gridCols w grid).length = w := by
  simp [gridCols]

theorem gram_satisfied_iff (g : Nonogram) (grid : List (List Bool))
    (hwf : WFGrid g.rows.length g.cols.length grid) :
    gram_satisfied_by g grid = true ↔
      (∀ pr ∈ g.rows.zip grid, satisfied_by pr.1 pr.2 = true) ∧
      (∀ pc ∈ g.cols.zip (gridCols g.cols.length grid),
        satisfied_by pc.1 pc.2 = true) := by
  have hzr : (g.rows.zip grid).length = g.rows.length := by
    rw [List.length_zip, hwf.1]
    omega
  have hzc : (g.cols.zip (gridCols g.cols.length grid)).length =
      g.cols.length := by
    rw [List.length_zip, length_gridCols]
    omega
  unfold gram_satisfied_by
  rw [beq_iff_eq]
  unfold satisfied_count num_clues
  constructor
  · intro heq
    have hr := List.countP_le_length
      (p := fun rc : List Nat × List Bool => satisfied_by rc.1 rc.2)
      (l := g.rows.zip grid)
    have hc := List.countP_le_length
      (p := fun cc : List Nat × List Bool => satisfied_by cc.1 cc.2)
      (l := g.cols.zip (gridCols g.cols.length grid))
    rw [hzr] at hr
    rw [hzc] at hc
    have h1 : (g.rows.zip grid).countP
        (fun rc => satisfied_by rc.1 rc.2) = (g.rows.zip grid).length := by
      rw [hzr]
      omega
    have h2 : (g.cols.zip (gridCols g.cols.length grid)).countP
        (fun cc => satisfied_by cc.1 cc.2) =
        (g.cols.zip (gridCols g.cols.length grid)).length := by
      rw [hzc]
      omega
    exact ⟨fun pr hpr => List.countP_eq_length.mp h1 pr hpr,
      fun pc hpc => List.countP_eq_length.mp h2 pc hpc⟩
  · rintro ⟨h1, h2⟩
    have hc1 : (g.rows.zip grid).countP
        (fun rc => satisfied_by rc.1 rc.2) = (g.rows.zip grid).length :=
      List.countP_eq_length.mpr h1
    have hc2 : (g.cols.zip (gridCols g.cols.length grid)).countP
        (fun cc => satisfied_by cc.1 cc.2) =
        (g.cols.zip (gridCols g.cols.length grid)).length :=
      List.countP_eq_length.mpr h2
    rw [hc1, hc2, hzr, hzc]

/-! ## The exhaustive solver -/

theorem naive_step_eq_of_eq (g : Nonogram) (m : Nat)
    (lst : List (List (List Bool))) (gr : List (List Bool))
    (h : satisfied_count g gr = m) :
    naive_step g (m, lst) gr = (m, lst ++ [gr]) := by
  simp [naive_step, h]

theorem naive_step_eq_of_gt (g : Nonogram) (m : Nat)
    (lst : List (List (List Bool))) (gr : List (List Bool))
    (h : m < satisfied_count g gr) :
    naive_step g (m, lst) gr = (satisfied_count g gr, [gr]) := by
  have hne : ¬ satisfied_count g gr = m := by omega
  simp [naive_step, hne, h]

theorem naive_step_eq_of_lt (g : Nonogram) (m : Nat)
    (lst : List (List (List Bool))) (gr : List (List Bool))
    (h : satisfied_count g gr < m) :
    naive_step g (m, lst) gr = (m, lst) := by
  have hne : ¬ satisfied_count g gr = m := by omega
  have hng : ¬ satisfied_count g gr > m := by omega
  simp [naive_step, hne, hng]

theorem naive_fold_inv (g : Nonogram) (S : List (List Bool) → Prop) :
    ∀ (L : List (List (List Bool))) (m : Nat)
      (lst : List (List (List Bool))),
      (∀ x ∈ L, S x) →
      (lst = [] → m = 0) →
      (∀ x, lst.head? = some x → S x ∧ satisfied_count g x = m) →
      ((L.foldl (naive_step g) (m, lst)).2 = [] → L = [] ∧ lst = []) ∧
      (∀ x, (L.foldl (naive_step g) (m, lst)).2.head? = some x →
        S x ∧ satisfied_count g x = (L.foldl (naive_step g) (m, lst)).1) ∧
      m ≤ (L.foldl (naive_step g) (m, lst)).1 ∧
      (∀ gr ∈ L,
        satisfied_count g gr ≤ (L.foldl (naive_step g) (m, lst)).1) := by
  intro L
  induction L with
  | nil =>
    intro m lst _ hemp hhead
    simp only [List.foldl_nil]
    exact ⟨fun h => ⟨by simp, h⟩, hhead, le_refl m, by simp⟩
  | cons gr L ih =>
    intro m lst hS hemp hhead
    rw [List.foldl_cons]
    have hSgr : S gr := hS gr (List.mem_cons_self _ _)
    have hSL : ∀ x ∈ L, S x := fun x hx => hS x (List.mem_cons_of_mem _ hx)
    rcases Nat.lt_trichotomy (satisfied_count g gr) m with hlt | heq | hgt
    · rw [naive_step_eq_of_lt g m lst gr hlt]
      have hlst_ne : lst ≠ [] := by
        intro hcon
        have := hemp hcon
        omega
      obtain ⟨h1, h2, h3, h4⟩ := ih m lst hSL hemp hhead
      refine ⟨fun h => absurd (h1 h).2 hlst_ne, h2, h3, ?_⟩
      intro z hz
      cases hz with
      | head => omega
      | tail _ hmem => exact h4 z hmem
    · rw [naive_step_eq_of_eq g m lst gr heq]
      have hhead2 : ∀ x, (lst ++ [gr]).head? = some x →
          S x ∧ satisfied_count g x = m := by
        intro x hx
        cases lst with
        | nil =>
          simp at hx
          subst hx
          exact ⟨hSgr, heq⟩
        | cons y t =>
          simp at hx
          subst hx
          exact hhead y rfl
      obtain ⟨h1, h2, h3, h4⟩ := ih m (lst ++ [gr]) hSL (by simp) hhead2
      refine ⟨fun h => absurd (h1 h).2 (by simp), h2, h3, ?_⟩
      intro z hz
      cases hz with
      | head => omega
      | tail _ hmem => exact h4 z hmem
    · rw [naive_step_eq_of_gt g m lst gr hgt]
      have hhead2 : ∀ x, ([gr] : List (List (List Bool))).head? = some x →
          S x ∧ satisfied_count g x = satisfied_count g gr := by
        intro x hx
        simp at hx
        subst hx
        exact ⟨hSgr, rfl⟩
      obtain ⟨h1, h2, h3, h4⟩ := ih (satisfied_count g gr) [gr] hSL
        (by simp) hhead2
      refine ⟨fun h => absurd (h1 h).2 (by simp), h2, by omega, ?_⟩
      intro z hz
      cases hz with
      | head => exact h3
      | tail _ hmem => exact h4 z hmem

theorem mem_allGrids (g : Nonogram) (x : List (List Bool)) :
    x ∈ pyProduct (pyProduct [false, true] g.cols.length) g.rows.length ↔
      WFGrid g.rows.length g.cols.length x := by
  rw [mem_pyProduct]
  unfold WFGrid
  constructor
  · rintro ⟨h1, h2⟩
    refine ⟨h1, fun row hrow => ((mem_pyProduct _ _ _).mp (h2 row hrow)).1⟩
  · rintro ⟨h1, h2⟩
    refine ⟨h1, fun row hrow => (mem_pyProduct _ _ _).mpr
      ⟨h2 row hrow, fun b _ => by cases b <;> simp⟩⟩

theorem allGrids_ne_nil (g : Nonogram) :
    pyProduct (pyProduct [false, true] g.cols.length) g.rows.length ≠ [] := by
  have hmem : List.replicate g.rows.length
      (List.replicate g.cols.length false) ∈
      pyProduct (pyProduct [false, true] g.cols.length) g.rows.length := by
    rw [mem_allGrids]
    refine ⟨by simp, ?_⟩
    intro row hrow
    rw [List.eq_of_mem_replicate hrow]
    simp
  exact List.ne_nil_of_mem hmem

theorem naive_solve_spec (g : Nonogram) :
    (naive_solve g ≠ SolveResult.inc) ∧
    (naive_solve g = SolveResult.dne ↔
      ¬ ∃ grid, WFGrid g.rows.length g.cols.length grid ∧
        gram_satisfied_by g grid = true) ∧
    (∀ gr, naive_solve g = SolveResult.grid gr →
      WFGrid g.rows.length g.cols.length gr ∧
        gram_satisfied_by g gr = true) := by
  set L := pyProduct (pyProduct [false, true] g.cols.length) g.rows.length
    with hL_def
  have hfold := naive_fold_inv g (fun x => x ∈ L) L 0 []
    (fun x hx => hx) (fun _ => rfl) (by simp)
  have hmax_eq : naive_max_sat g = L.foldl (naive_step g) (0, []) := rfl
  set r := L.foldl (naive_step g) (0, []) with hr_def
  have hns : naive_solve g =
      (if r.1 = g.rows.length + g.cols.length then
        (match r.2 with
         | [] => SolveResult.dne
         | x :: _ => SolveResult.grid x)
       else SolveResult.dne) := rfl
  cases hr2 : r.2 with
  | nil =>
    exact absurd (hfold.1 hr2).1 (allGrids_ne_nil g)
  | cons x lst2 =>
    obtain ⟨hxL, hxsat⟩ := hfold.2.1 x (by rw [hr2]; rfl)
    have hxwf : WFGrid g.rows.length g.cols.length x :=
      (mem_allGrids g x).mp hxL
    have hr1_le : r.1 ≤ num_clues g := by
      rw [← hxsat]
      exact sat_count_le g x
    have hmax : ∀ gr ∈ L, satisfied_count g gr ≤ r.1 := hfold.2.2.2
    rw [hr2] at hns
    by_cases hfull : r.1 = g.rows.length + g.cols.length
    · rw [if_pos hfull] at hns
      have hxfull : gram_satisfied_by g x = true := by
        unfold gram_satisfied_by
        rw [beq_iff_eq, hxsat, hfull]
        rfl
      refine ⟨by rw [hns]; simp, ?_, ?_⟩
      · rw [hns]
        constructor
        · intro h
          exact absurd h (by simp)
        · intro h
          exact absurd ⟨x, hxwf, hxfull⟩ h
      · intro gr hgr
        rw [hns] at hgr
        injection hgr with hgr
        subst hgr
        exact ⟨hxwf, hxfull⟩
    · rw [if_neg hfull] at hns
      refine ⟨by rw [hns]; simp, ?_, ?_⟩
      · rw [hns]
        constructor
        · intro _
          rintro ⟨grid, hgwf, hgsat⟩
          have hgL : grid ∈ L := (mem_allGrids g grid).mpr hgwf
          have h1 : satisfied_count g grid = num_clues g := by
            have h5 := hgsat
            unfold gram_satisfied_by at h5
            rw [beq_iff_eq] at h5
            exact h5
          have h3 : num_clues g ≤ r.1 := by
            rw [← h1]
            exact hmax grid hgL
          have h4 : r.1 = num_clues g := le_antisymm hr1_le h3
          exact hfull (by rw [h4]; rfl)
        · intro _
          rfl
      · intro gr hgr
        rw [hns] at hgr
        exact absurd hgr (by simp)

/-- C4: for every Nonogram, `NaiveSolver.solve` never returns
`SolveFailure.INC`; it returns `SolveFailure.DNE` exactly when no boolean grid
of the puzzle dimensions satisfies all row and column clues; and any grid it
returns has the puzzle dimensions and satisfies `puzzle.satisfied_by`. -/
theorem naive_solve_correct (g : Nonogram) :
    (naive_solve g ≠ SolveResult.inc) ∧
    (naive_solve g = SolveResult.dne ↔
      ¬ ∃ grid, WFGrid g.rows.length g.cols.length grid ∧
        gram_satisfied_by g grid = true) ∧
    (∀ gr, naive_solve g = SolveResult.grid gr →
      WFGrid g.rows.length g.cols.length gr ∧
        gram_satisfied_by g gr = true) :=
  naive_solve_spec g

theorem naive_solve_correct_witness :
    WFGrid 1 1 [[true]] ∧ gram_satisfied_by (Nonogram.mk [[1]] [[1]]) [[true]] = true :=
  (naive_solve_correct (Nonogram.mk [[1]] [[1]])).2.2 [[true]] (by decide)

/-! ## The solution-count bug and its consequences -/

/-- C2: evaluating `ClueSolutions.__len__` at clue `[1, 1, 1]` and target
length `0` (a case the repository test `test_too_short` expects to return
`0`) raises `ValueError`, because `math.comb` is called with the negative
first argument `0 + 1 - 3 = -2`. -/
theorem cs_len_raises_valueerror :
    cs_len [1, 1, 1] 0 = Except.error "ValueError" := by rfl

/-- C5: evaluating `ClueChooser.solve` on the Nonogram with row clues
`[[4]]` and column clues `[[1], [1]]` (the row clue `[4]` has zero
satisfying fillings of width 2, so the claim expects `DNE`) raises
`ValueError` inside `ClueSolutions.__len__` via `math.comb(-1, 1)`. -/
theorem chooser_raises_valueerror :
    clue_chooser_solve (Nonogram.mk [[4]] [[1], [1]]) =
      Except.error "ValueError" := by rfl

/-- C10 counterexample: for the Nonogram built from one empty row clue and
column clues `[[1]]`, the row-clue list is empty after trimming, yet
`ClueChooser.solve` does not raise `IndexError`: it returns
`SolveFailure.DNE` from the zero-count early exit, so the claim is false as
universally stated. -/
theorem chooser_empty_rows_returns_dne :
    clue_chooser_solve (mkNonogram [[]] [[1]]) =
      Except.ok SolveResult.dne := by rfl

/-- C10 (amended): for every Nonogram whose row-clue list and column-clue
list are both empty after trimming, `ClueChooser.solve` raises `IndexError`
from indexing the empty list of per-row solution enumerators, whereas
`NaiveSolver.solve` returns a result (the unique 0-by-0 grid). -/
theorem chooser_empty_rows_cols (g : Nonogram) (h1 : g.rows = [])
    (h2 : g.cols = []) :
    clue_chooser_solve g = Except.error "IndexError" ∧
      naive_solve g = SolveResult.grid [] := by
  obtain ⟨rows, cols⟩ := g
  simp only at h1 h2
  subst h1
  subst h2
  exact ⟨rfl, rfl⟩

theorem chooser_empty_rows_cols_witness :
    clue_chooser_solve (Nonogram.mk [] []) = Except.error "IndexError" ∧
      naive_solve (Nonogram.mk [] []) = SolveResult.grid [] :=
  chooser_empty_rows_cols (Nonogram.mk [] []) rfl rfl

/-! ## Agreement of the two solvers on benign inputs -/

theorem except_bind_ok {ε α β : Type} (a : α) (f : α → Except ε β) :
    Bind.bind (Except.ok a : Except ε α) f = f a := rfl

theorem cs_len_ok (clue : List Nat) (len : Nat) (h : clue.sum ≤ len + 1) :
    cs_len clue len =
      Except.ok (Nat.choose (len + 1 - clue.sum) clue.length) := by
  have hc : ¬ (((len : Int) + 1 - (clue.sum : Int) < 0) ∨
      ((clue.length : Int) < 0)) := by omega
  rw [cs_len, math_comb, if_neg hc]
  have h1 : ((len : Int) + 1 - (clue.sum : Int)).toNat = len + 1 - clue.sum :=
    by omega
  have h2 : ((clue.length : Int)).toNat = clue.length := by omega
  rw [h1, h2]

theorem num_combs_ok : ∀ (clues : List (List Nat)) (len : Nat),
    (∀ c ∈ clues, c.sum ≤ len + 1) →
    num_combs clues len =
      Except.ok ((clues.map
        (fun c => Nat.choose (len + 1 - c.sum) c.length)).prod) := by
  intro clues
  induction clues with
  | nil => intro len h; rfl
  | cons c cs ih =>
    intro len h
    have h1 := cs_len_ok c len (h c (List.mem_cons_self c cs))
    have h2 := ih len (fun d hd => h d (List.mem_cons_of_mem c hd))
    show Bind.bind (cs_len c len) _ = _
    rw [h1, except_bind_ok, h2, except_bind_ok, List.map_cons, List.prod_cons]
    rfl

theorem choose_zero_no_line (clue : List Nat) (len : Nat)
    (h0 : Nat.choose (len + 1 - clue.sum) clue.length = 0) :
    ∀ s : List Bool, s.length = len → runs s ≠ clue := by
  intro s hlen hruns
  have hb := satisfied_length_bound clue s hruns
  have hlt := Nat.choose_eq_zero_iff.mp h0
  omega

theorem exists_zip_pair {α β : Type} :
    ∀ (l1 : List α) (l2 : List β) (a : α), l1.length = l2.length → a ∈ l1 →
      ∃ b, (a, b) ∈ l1.zip l2
  | x :: l1, y :: l2, a, hlen, ha => by
    rcases List.mem_cons.mp ha with rfl | ha2
    · exact ⟨y, by simp⟩
    · obtain ⟨b, hb⟩ := exists_zip_pair l1 l2 a (by simpa using hlen) ha2
      exact ⟨b, List.mem_cons_of_mem _ hb⟩
  | [], _, a, _, ha => absurd ha (List.not_mem_nil a)
  | _ :: _, [], a, hlen, ha => by simp at hlen

theorem mem_gridCols_length (w : Nat) (grid : List (List Bool))
    (col : List Bool) (h : col ∈ gridCols w grid) : col.length = grid.length := by
  rw [gridCols] at h
  obtain ⟨c, hc, rfl⟩ := List.mem_map.mp h
  simp

theorem chooser_candidates_wf (g : Nonogram)
    (hrowpos : ∀ c ∈ g.rows, ∀ x ∈ c, 1 ≤ x) :
    ∀ grid ∈ chooser_candidates g,
      WFGrid g.rows.length g.cols.length grid := by
  intro grid hgrid
  rw [chooser_candidates, mem_listProd] at hgrid
  have hlen := List.Forall₂.length_eq hgrid
  rw [List.length_map] at hlen
  refine ⟨hlen, ?_⟩
  intro row hrow
  obtain ⟨hlen2, hpairs⟩ := List.forall₂_iff_zip.mp hgrid
  obtain ⟨sols, hmem⟩ := exists_zip_pair grid _ row hlen2 hrow
  have hrs : row ∈ sols := hpairs hmem
  have hsols : sols ∈ g.rows.map (fun r => clue_solutions r g.cols.length) :=
    (List.of_mem_zip hmem).2
  obtain ⟨r, hr, rfl⟩ := List.mem_map.mp hsols
  exact (clue_solutions_sound r g.cols.length (hrowpos r hr) row hrs).1

theorem sat_grid_mem_candidates (g : Nonogram) (grid : List (List Bool))
    (hwf : WFGrid g.rows.length g.cols.length grid)
    (hsat : gram_satisfied_by g grid = true) :
    grid ∈ chooser_candidates g := by
  rw [chooser_candidates, mem_listProd, List.forall₂_iff_zip]
  refine ⟨by simp [hwf.1], ?_⟩
  intro row sols hmem
  rw [List.zip_map_right] at hmem
  obtain ⟨a, ha, heq⟩ := List.mem_map.mp hmem
  obtain ⟨row2, r⟩ := a
  simp only [Prod.map, id] at heq
  obtain ⟨e1, e2⟩ := Prod.mk.injEq .. |>.mp heq
  rw [← e1, ← e2]
  have hswap : (r, row2) ∈ g.rows.zip grid := by
    rw [← List.zip_swap]
    exact List.mem_map_of_mem Prod.swap ha
  have hs : satisfied_by r row2 = true :=
    ((gram_satisfied_iff g grid hwf).mp hsat).1 _ hswap
  have hrowg : row2 ∈ grid := (List.of_mem_zip ha).1
  exact clue_solutions_complete r g.cols.length row2 (hwf.2 row2 hrowg)
    ((satisfied_iff_runs r row2).mp hs)

theorem no_sat_of_row_zero (g : Nonogram) (c : List Nat) (hc : c ∈ g.rows)
    (h0 : Nat.choose (g.cols.length + 1 - c.sum) c.length = 0) :
    ¬ ∃ grid, WFGrid g.rows.length g.cols.length grid ∧
      gram_satisfied_by g grid = true := by
  rintro ⟨grid, hwf, hsat⟩
  obtain ⟨row, hpair⟩ := exists_zip_pair g.rows grid c hwf.1.symm hc
  have hs := ((gram_satisfied_iff g grid hwf).mp hsat).1 _ hpair
  have hrow : row ∈ grid := (List.of_mem_zip hpair).2
  exact choose_zero_no_line c g.cols.length h0 row (hwf.2 row hrow)
    ((satisfied_iff_runs c row).mp hs)

theorem no_sat_of_col_zero (g : Nonogram) (c : List Nat) (hc : c ∈ g.cols)
    (h0 : Nat.choose (g.rows.length + 1 - c.sum) c.length = 0) :
    ¬ ∃ grid, WFGrid g.rows.length g.cols.length grid ∧
      gram_satisfied_by g grid = true := by
  rintro ⟨grid, hwf, hsat⟩
  obtain ⟨col, hpair⟩ := exists_zip_pair g.cols (gridCols g.cols.length grid) c
    (length_gridCols g.cols.length grid).symm hc
  have hs := ((gram_satisfied_iff g grid hwf).mp hsat).2 _ hpair
  have hcol : col ∈ gridCols g.cols.length grid := (List.of_mem_zip hpair).2
  have hlen : col.length = g.rows.length := by
    rw [mem_gridCols_length _ _ _ hcol, hwf.1]
  exact choose_zero_no_line c g.rows.length h0 col hlen
    ((satisfied_iff_runs c col).mp hs)

theorem chooser_solve_eval_zero (g : Nonogram) (R C : Nat)
    (hR : num_combs g.rows g.cols.length = Except.ok R)
    (hC : num_combs g.cols g.rows.length = Except.ok C)
    (hz : R = 0 ∨ C = 0) :
    clue_chooser_solve g = Except.ok SolveResult.dne := by
  rw [clue_chooser_solve, hR, except_bind_ok, hC, except_bind_ok, if_pos hz]
  rfl

theorem chooser_solve_eval_some (g : Nonogram) (R C : Nat)
    (grid : List (List Bool))
    (hR : num_combs g.rows g.cols.length = Except.ok R)
    (hC : num_combs g.cols g.rows.length = Except.ok C)
    (hz : ¬ (R = 0 ∨ C = 0))
    (hfs : chooser_find_solution g = Except.ok (some grid)) :
    clue_chooser_solve g = Except.ok (SolveResult.grid grid) := by
  rw [clue_chooser_solve, hR, except_bind_ok, hC, except_bind_ok, if_neg hz,
    hfs, except_bind_ok]
  rfl

theorem chooser_solve_eval_none (g : Nonogram) (R C : Nat)
    (hR : num_combs g.rows g.cols.length = Except.ok R)
    (hC : num_combs g.cols g.rows.length = Except.ok C)
    (hz : ¬ (R = 0 ∨ C = 0))
    (hfs : chooser_find_solution g = Except.ok none) :
    clue_chooser_solve g = Except.ok SolveResult.dne := by
  rw [clue_chooser_solve, hR, except_bind_ok, hC, except_bind_ok, if_neg hz,
    hfs, except_bind_ok]
  rfl

theorem find_solution_of_rows_ne_nil (g : Nonogram) (h : g.rows ≠ []) :
    chooser_find_solution g =
      Except.ok ((chooser_candidates g).find?
        (fun grid => gram_satisfied_by g grid)) := by
  rw [chooser_find_solution]
  obtain ⟨r0, rs, hrw⟩ := List.exists_cons_of_ne_nil h
  rw [hrw]

theorem rows_ne_nil_of_nonzero (g : Nonogram)
    (hcolpos : ∀ c ∈ g.cols, ∀ x ∈ c, 1 ≤ x)
    (htrimc : g.cols = init_clues g.cols)
    (hne : ¬ (g.rows = [] ∧ g.cols = []))
    (hCnz : (g.cols.map
      (fun c => Nat.choose (g.rows.length + 1 - c.sum) c.length)).prod ≠ 0)
    (hcolsum : ∀ c ∈ g.cols, c.sum ≤ g.rows.length + 1) :
    g.rows ≠ [] := by
  intro hrnil
  have hcols_ne : g.cols ≠ [] := fun hcnil => hne ⟨hrnil, hcnil⟩
  obtain ⟨c0, cs, hcons⟩ := List.exists_cons_of_ne_nil hcols_ne
  have hhead : g.cols.head? ≠ some ([] : List Nat) := by
    rw [htrimc]
    exact init_clues_head_ne_empty g.cols
  rw [hcons] at hhead
  have hc0ne : c0 ≠ [] := by simpa using hhead
  have hc0mem : c0 ∈ g.cols := by rw [hcons]; exact List.mem_cons_self _ _
  have hsum_le : c0.sum ≤ 1 := by
    have hb := hcolsum c0 hc0mem
    rw [hrnil] at hb
    simpa using hb
  obtain ⟨y, ys, rfl⟩ := List.exists_cons_of_ne_nil hc0ne
  have hy : 1 ≤ y := hcolpos _ hc0mem y (List.mem_cons_self _ _)
  have hys : ys = [] := by
    cases ys with
    | nil => rfl
    | cons z zs =>
      exfalso
      have hz : 1 ≤ z := hcolpos _ hc0mem z (by simp)
      have hsum : (y :: z :: zs).sum = y + (z + zs.sum) := by simp
      omega
  subst hys
  have hy1 : y = 1 := by
    have hsum : (y :: ([] : List Nat)).sum = y := by simp
    omega
  subst hy1
  apply hCnz
  apply List.prod_eq_zero_iff.mpr
  have h0 : Nat.choose (g.rows.length + 1 - ([1] : List Nat).sum)
      ([1] : List Nat).length = 0 := by
    rw [hrnil]
    decide
  rw [← h0]
  exact List.mem_map_of_mem _ hc0mem

/-- C6 (amended): `ClueChooser.solve` and `NaiveSolver.solve` agree on every
Nonogram whose stored clue lists are positive and trimmed (as `Nonogram`
construction guarantees), are not both empty (which raises `IndexError`,
see C10), and whose clue sums fit in the grid dimensions (otherwise
`ClueSolutions.__len__` raises `ValueError`, see C5): either both return a
well-formed satisfying grid, or both report `DNE`; neither ever reports
`INC`. -/
theorem solvers_agree (g : Nonogram)
    (hrowpos : ∀ c ∈ g.rows, ∀ x ∈ c, 1 ≤ x)
    (hcolpos : ∀ c ∈ g.cols, ∀ x ∈ c, 1 ≤ x)
    (htrimr : g.rows = init_clues g.rows)
    (htrimc : g.cols = init_clues g.cols)
    (hne : ¬ (g.rows = [] ∧ g.cols = []))
    (hrowsum : ∀ c ∈ g.rows, c.sum ≤ g.cols.length + 1)
    (hcolsum : ∀ c ∈ g.cols, c.sum ≤ g.rows.length + 1) :
    ((∃ gr1 gr2, clue_chooser_solve g = Except.ok (SolveResult.grid gr1) ∧
        naive_solve g = SolveResult.grid gr2 ∧
        WFGrid g.rows.length g.cols.length gr1 ∧
        gram_satisfied_by g gr1 = true ∧
        WFGrid g.rows.length g.cols.length gr2 ∧
        gram_satisfied_by g gr2 = true) ∨
      (clue_chooser_solve g = Except.ok SolveResult.dne ∧
        naive_solve g = SolveResult.dne)) ∧
    clue_chooser_solve g ≠ Except.ok SolveResult.inc ∧
    naive_solve g ≠ SolveResult.inc := by
  have hR := num_combs_ok g.rows g.cols.length hrowsum
  have hC := num_combs_ok g.cols g.rows.length hcolsum
  by_cases hz : (g.rows.map
      (fun c => Nat.choose (g.cols.length + 1 - c.sum) c.length)).prod = 0 ∨
    (g.cols.map
      (fun c => Nat.choose (g.rows.length + 1 - c.sum) c.length)).prod = 0
  · have hch := chooser_solve_eval_zero g _ _ hR hC hz
    have hnosol : ¬ ∃ grid, WFGrid g.rows.length g.cols.length grid ∧
        gram_satisfied_by g grid = true := by
      rcases hz with hz | hz
      · obtain ⟨c, hc, hc0⟩ := List.mem_map.mp (List.prod_eq_zero_iff.mp hz)
        exact no_sat_of_row_zero g c hc hc0
      · obtain ⟨c, hc, hc0⟩ := List.mem_map.mp (List.prod_eq_zero_iff.mp hz)
        exact no_sat_of_col_zero g c hc hc0
    have hnv : naive_solve g = SolveResult.dne :=
      (naive_solve_spec g).2.1.mpr hnosol
    refine ⟨Or.inr ⟨hch, hnv⟩, ?_, (naive_solve_spec g).1⟩
    rw [hch]
    intro hcon
    exact absurd (Except.ok.inj hcon) (by decide)
  · have hrne := rows_ne_nil_of_nonzero g hcolpos htrimc hne
      (fun h => hz (Or.inr h)) hcolsum
    have hfind := find_solution_of_rows_ne_nil g hrne
    cases hfs : (chooser_candidates g).find?
        (fun grid => gram_satisfied_by g grid) with
    | some grid =>
      rw [hfs] at hfind
      have hch := chooser_solve_eval_some g _ _ grid hR hC hz hfind
      have hmem := List.mem_of_find?_eq_some hfs
      have hsat : gram_satisfied_by g grid = true := List.find?_some hfs
      have hwf := chooser_candidates_wf g hrowpos grid hmem
      have hex : ∃ grid2, WFGrid g.rows.length g.cols.length grid2 ∧
          gram_satisfied_by g grid2 = true := ⟨grid, hwf, hsat⟩
      cases hnv : naive_solve g with
      | grid gr2 =>
        obtain ⟨hwf2, hsat2⟩ := (naive_solve_spec g).2.2 gr2 hnv
        refine ⟨Or.inl ⟨grid, gr2, hch, rfl, hwf, hsat, hwf2, hsat2⟩,
          ?_, ?_⟩
        · rw [hch]
          intro hcon
          exact SolveResult.noConfusion (Except.ok.inj hcon)
        · simp
      | dne => exact absurd hex ((naive_solve_spec g).2.1.mp hnv)
      | inc => exact absurd hnv (naive_solve_spec g).1
    | none =>
      rw [hfs] at hfind
      have hch := chooser_solve_eval_none g _ _ hR hC hz hfind
      have hnosol : ¬ ∃ grid, WFGrid g.rows.length g.cols.length grid ∧
          gram_satisfied_by g grid = true := by
        rintro ⟨grid, hwf, hsat⟩
        exact List.find?_eq_none.mp hfs grid
          (sat_grid_mem_candidates g grid hwf hsat) hsat
      have hnv : naive_solve g = SolveResult.dne :=
        (naive_solve_spec g).2.1.mpr hnosol
      refine ⟨Or.inr ⟨hch, hnv⟩, ?_, (naive_solve_spec g).1⟩
      rw [hch]
      intro hcon
      exact absurd (Except.ok.inj hcon) (by decide)

theorem solvers_agree_witness :
    ((∃ gr1 gr2, clue_chooser_solve (Nonogram.mk [[1]] [[1]]) =
        Except.ok (SolveResult.grid gr1) ∧
        naive_solve (Nonogram.mk [[1]] [[1]]) = SolveResult.grid gr2 ∧
        WFGrid 1 1 gr1 ∧
        gram_satisfied_by (Nonogram.mk [[1]] [[1]]) gr1 = true ∧
        WFGrid 1 1 gr2 ∧
        gram_satisfied_by (Nonogram.mk [[1]] [[1]]) gr2 = true) ∨
      (clue_chooser_solve (Nonogram.mk [[1]] [[1]]) =
          Except.ok SolveResult.dne ∧
        naive_solve (Nonogram.mk [[1]] [[1]]) = SolveResult.dne)) ∧
    clue_chooser_solve (Nonogram.mk [[1]] [[1]]) ≠
      Except.ok SolveResult.inc ∧
    naive_solve (Nonogram.mk [[1]] [[1]]) ≠ SolveResult.inc :=
  solvers_agree (Nonogram.mk [[1]] [[1]]) (by decide) (by decide) (by rfl)
    (by rfl) (by decide) (by decide) (by decide)

/-- C6 counterexample: on the Nonogram with row clues `[[4]]` and column
clues `[[1], [1]]` the two solvers do not behave identically:
`ClueChooser.solve` raises `ValueError` while `NaiveSolver.solve` returns
`SolveFailure.DNE`. -/
theorem solvers_disagree_counterexample :
    clue_chooser_solve (Nonogram.mk [[4]] [[1], [1]]) =
      Except.error "ValueError" ∧
    naive_solve (Nonogram.mk [[4]] [[1], [1]]) = SolveResult.dne :=
  ⟨by rfl, by decide⟩
